import Mathlib

/-!
Verification of the autocomplete trie (`src/trie.py`).

Shallow embedding conventions:
* Python strings are `List Char`; the Python string comparison is the
  lexicographic order on `List Char` (the Mathlib linear order instance).
* Scores (`freq`, Python floats) are modelled by `ℚ`; all comparisons the
  code performs on them are order comparisons, which `ℚ` models exactly for
  the rational score values the program manipulates.
* A `dict` mapping characters to child nodes is an insertion-ordered
  association list: lookup finds the (unique) matching key, update replaces
  the value in place, a fresh key is appended at the end, and deletion
  removes the entry.  This matches CPython dict semantics for the
  operations the trie performs.
* The `heapq` min-heap used by `complete` is modelled by the ascending
  sorted list of its contents.  `heappush` inserts; `heappushpop` inserts
  and then removes the minimum, which is exactly what the pair of library
  calls does to the heap contents (the array layout of the binary heap
  only affects which element sits at index 0, and that is always the
  minimum).
* Python `int` is `Int` (so a negative `k` is representable), the counters
  `_words` / `_nodes` are `Int` as well.
-/

/-- A single node of the trie: `children` (insertion-ordered association
list modelling the Python dict), `is_word` terminal flag, `freq` score. -/
inductive TrieNode : Type where
  | mk (children : List (Char × TrieNode)) ( is_word : Bool) (freq : ℚ)

def TrieNode.children : TrieNode → List (Char × TrieNode)
  | .mk cs _ _ => cs

def TrieNode.is_word : TrieNode → Bool
  | .mk _ iw _ => iw

def TrieNode.freq : TrieNode → ℚ
  | .mk _ _ fq => fq

/-- Python `TrieNode.__init__`: empty children, not a word, score `0.0`. -/
def TrieNode.init : TrieNode := .mk [] false 0

/-- Dict lookup `cs[x]` / `x in cs` combined: first matching key. -/
def lookupA : List (Char × TrieNode) → Char → Option TrieNode
  | [], _ => none
  | (c, t) :: rest, x => if x = c then some t else lookupA rest x

/-- Dict update `cs[x] = v` for a key already present: replace in place. -/
def updateA : List (Char × TrieNode) → Char → TrieNode → List (Char × TrieNode)
  | [], _, _ => []
  | (c, t) :: rest, x, v => if x = c then (c, v) :: rest else (c, t) :: updateA rest x v

/-- Dict deletion `del cs[x]`: drop the matching entry. -/
def eraseA : List (Char × TrieNode) → Char → List (Char × TrieNode)
  | [], _ => []
  | (c, t) :: rest, x => if x = c then rest else (c, t) :: eraseA rest x

/-- The trie object: root node plus the two running counters. -/
structure Trie where
  root : TrieNode
  wordsC : Int
  nodesC : Int

/-- Python `Trie.__init__`: fresh root, zero words, one node. -/
def Trie.init : Trie := ⟨TrieNode.init, 0, 1⟩

/-- Python `Trie._find_node`: walk the exact symbol path, `none` when a step is
missing.  (The Python helper also returns the visited path; `remove` below
integrates that walk directly.) -/
def findNode : TrieNode → List Char → Option TrieNode
  | n, [] => some n
  | n, c :: rest =>
    match lookupA n.children c with
    | none => none
    | some child => findNode child rest

/-- Recursive core of `Trie.insert`: returns the rebuilt node together
with the number of nodes created and the word-count increment (`1` exactly
on a non-terminal-to-terminal transition). -/
def insertGo (fq : ℚ) : TrieNode → List Char → TrieNode × Nat × Nat
  | .mk cs iw _fq0, [] => (.mk cs true fq, 0, if iw then 0 else 1)
  | .mk cs iw fq0, c :: rest =>
    match lookupA cs c with
    | some child =>
      let r := insertGo fq child rest
      (.mk (updateA cs c r.1) iw fq0, r.2.1, r.2.2)
    | none =>
      let r := insertGo fq TrieNode.init rest
      (.mk (cs ++ [(c, r.1)]) iw fq0, r.2.1 + 1, r.2.2)

/-- Python `Trie.insert(word, freq)`. -/
def Trie.insert (t : Trie) (w : List Char) (fq : ℚ) : Trie :=
  let r := insertGo fq t.root w
  ⟨r.1, t.wordsC + (r.2.2 : Int), t.nodesC + (r.2.1 : Int)⟩

/-- Recursive core of `Trie.remove`, mirroring the Python pruning loop
together with its wrong-key deletion.  In `_find_node`, `path_nodes[i]`
stores each visited node with the symbol used to ENTER it (the root
carries the empty marker); the pruning loop unpacks
`parent_node, char = path_nodes[i-1]`, so the key it deletes from the
parent dict is the symbol leading INTO the parent, not the edge from the
parent to the dead child.  Here `cin` is the incoming symbol of the
current node (`none` for the root; the root marker, the empty string, is
never a dict key, since keys are single characters of inserted words).
The result is `none` when the word is absent or not terminal; otherwise
the rebuilt node, whether it is now childless and non-terminal (the loop
walks upward exactly while this holds; it breaks at the first live
node), and the number of performed `del` operations — the `_nodes`
decrement is one per `del`, even when the deleted entry is a whole
subtree. -/
def removeGo (cin : Option Char) : TrieNode → List Char → Option (TrieNode × Bool × Nat)
  | .mk cs iw _fq, [] =>
    if iw then some (.mk cs false 0, cs.isEmpty, 0) else none
  | .mk cs iw fq, c :: rest =>
    match lookupA cs c with
    | none => none
    | some child =>
      match removeGo (some c) child rest with
      | none => none
      | some (child', childDead, cnt) =>
        let cs1 := updateA cs c child'
        if childDead then
          match cin with
          | none => some (.mk cs1 iw fq, cs1.isEmpty && !iw, cnt)
          | some ci =>
            if (lookupA cs1 ci).isSome then
              let cs2 := eraseA cs1 ci
              some (.mk cs2 iw fq, cs2.isEmpty && !iw, cnt + 1)
            else
              some (.mk cs1 iw fq, cs1.isEmpty && !iw, cnt)
        else
          some (.mk cs1 iw fq, false, cnt)

/-- Python `Trie.remove(word)`: the root enters the recursion with no
incoming symbol, and the root itself is never deleted even when it ends
up childless — the Python loop range stops before index 0, and the guard
that asks whether the root marker is one of the root children is always
false. -/
def Trie.remove (t : Trie) (w : List Char) : Trie × Bool :=
  match removeGo none t.root w with
  | none => (t, false)
  | some (r, _, cnt) => (⟨r, t.wordsC - 1, t.nodesC - (cnt : Int)⟩, true)

/-- Python `Trie.contains(word)`. -/
def Trie.contains (t : Trie) (w : List Char) : Bool :=
  match findNode t.root w with
  | none => false
  | some n => n.is_word

/-- A heap item `(freq, word)`, compared as a Python tuple. -/
abbrev Item : Type := ℚ × List Char

/-- Python tuple order `(freq, word) <= (freq', word')` (lexicographic;
the word component uses the code-point lexicographic string order). -/
def ile (a b : Item) : Prop := a.1 < b.1 ∨ (a.1 = b.1 ∧ a.2 ≤ b.2)

instance : DecidableRel ile := fun a b => by
  unfold ile; exact instDecidableOr

/-- The output sort key `(-freq, word)` of `complete`, as an order. -/
def olex (a b : Item) : Prop := b.1 < a.1 ∨ (a.1 = b.1 ∧ a.2 ≤ b.2)

instance : DecidableRel olex := fun a b => by
  unfold olex; exact instDecidableOr

/-- Python `heapq.heappush`: the sorted contents gain one element. -/
def heapPush (heap : List Item) (x : Item) : List Item :=
  heap.orderedInsert ile x

/-- Python `heapq.heappushpop`: insert, then pop the minimum of the contents. -/
def heapPushPop (heap : List Item) (x : Item) : List Item :=
  (heap.orderedInsert ile x).tail

/-- One visit of a terminal node inside `_collect_all`: the `len < k`
guard chooses between `heappush` and `heappushpop`. -/
def heapStep (k : Int) (heap : List Item) (x : Item) : List Item :=
  if (heap.length : Int) < k then heapPush heap x else heapPushPop heap x

/-- Python `sorted(current_node.children.items())`: the children in ascending
key order (keys are distinct, so only the key part of the Python tuple
comparison ever decides). -/
def sortChildren (cs : List (Char × TrieNode)) : List (Char × TrieNode) :=
  cs.insertionSort (fun a b => a.1 ≤ b.1)

mutual
/-- Termination measure for traversals that first reorder the children. -/
def nodeWeight : TrieNode → Nat
  | .mk cs _ _ => 1 + listWeight cs
def listWeight : List (Char × TrieNode) → Nat
  | [] => 0
  | (_, t) :: rest => 1 + nodeWeight t + listWeight rest
end

theorem listWeight_perm {cs ds : List (Char × TrieNode)} (h : cs.Perm ds) :
    listWeight cs = listWeight ds := by
  induction h with
  | nil => rfl
  | cons x _ ih => cases x; simp [listWeight, ih]
  | swap x y _ => cases x; cases y; simp [listWeight]; omega
  | trans _ _ ih1 ih2 => omega

theorem sortChildren_weight_lt (cs : List (Char × TrieNode)) (iw : Bool) (fq : ℚ) :
    listWeight (sortChildren cs) < nodeWeight (.mk cs iw fq) := by
  have h := listWeight_perm (List.perm_insertionSort (fun a b => a.1 ≤ b.1) cs)
  simp [sortChildren, nodeWeight]
  omega

mutual
/-- Python `_collect_all(current_node, current_word)` threading the heap. -/
def collect (k : Int) (node : TrieNode) (cur : List Char) (heap : List Item) :
    List Item :=
  match node with
  | .mk cs iw fq =>
    let heap1 := if iw then heapStep k heap (fq, cur) else heap
    collectL k (sortChildren cs) cur heap1
termination_by nodeWeight node
decreasing_by apply sortChildren_weight_lt
/-- The `for char, child in sorted(...)` loop of `_collect_all`. -/
def collectL (k : Int) : List (Char × TrieNode) → List Char → List Item → List Item
  | [], _, heap => heap
  | (c, child) :: rest, cur, heap =>
    collectL k rest cur (collect k child (cur ++ [c]) heap)
termination_by l => listWeight l
decreasing_by all_goals simp [listWeight, nodeWeight] <;> omega
end

/-- Python `Trie.complete(prefix, k)`: locate the prefix node, run the bounded
collection, sort the heap contents by `(-freq, word)`, and project the
words. -/
def Trie.complete (t : Trie) (pre : List Char) (k : Int) : List (List Char) :=
  match findNode t.root pre with
  | none => []
  | some n => ((collect k n pre []).insertionSort olex).map Prod.snd

mutual
/-- Python `_get_height`: `0` for a childless node, else one plus the maximal
child height. -/
def getHeight : TrieNode → Nat
  | .mk cs _ _ =>
    match cs with
    | [] => 0
    | _ :: _ => 1 + maxHeightL cs
/-- The `for child in node.children.values()` max loop. -/
def maxHeightL : List (Char × TrieNode) → Nat
  | [] => 0
  | (_, t) :: rest => max (getHeight t) (maxHeightL rest)
end

/-- Python `Trie.stats()`: `(words, height, nodes)`. -/
def Trie.stats (t : Trie) : Int × Nat × Int :=
  (t.wordsC, getHeight t.root, t.nodesC)

mutual
/-- Python `_collect(node, current_word)` of `Trie.items`, threading the
accumulator; children are visited in dict (insertion) order. -/
def itemsGo : TrieNode → List Char → List (List Char × ℚ) → List (List Char × ℚ)
  | .mk cs iw fq, cur, acc =>
    let acc1 := if iw then acc ++ [(cur, fq)] else acc
    itemsGoL cs cur acc1
/-- The `for char, child_node in node.children.items()` loop. -/
def itemsGoL : List (Char × TrieNode) → List Char → List (List Char × ℚ) →
    List (List Char × ℚ)
  | [], _, acc => acc
  | (c, child) :: rest, cur, acc => itemsGoL rest cur (itemsGo child (cur ++ [c]) acc)
end

/-- Python `Trie.items()`. -/
def Trie.items (t : Trie) : List (List Char × ℚ) :=
  itemsGo t.root [] []

/-! ## Analysis-side definitions -/

/-- Word membership below a node (the node-level reading of `contains`). -/
def containsN (n : TrieNode) (v : List Char) : Bool :=
  match findNode n v with
  | none => false
  | some m => m.is_word

/-- The stored score of the node reached by `v`, if any. -/
def scoreAt (n : TrieNode) (v : List Char) : Option ℚ :=
  (findNode n v).map TrieNode.freq

/-- A node is live when it has a child or is terminal; a non-root node
that is not live is a dead branch the spec requires `remove` to prune. -/
def live (n : TrieNode) : Prop :=
  n.children ≠ [] ∨ n.is_word = true

mutual
/-- Every proper descendant of the node is live. -/
def noDead : TrieNode → Prop
  | .mk cs _ _ => noDeadL cs
def noDeadL : List (Char × TrieNode) → Prop
  | [] => True
  | (_, t) :: rest => live t ∧ noDead t ∧ noDeadL rest
end

mutual
/-- Structural well-formedness: the children keys of every node are
pairwise distinct (always true of a Python dict). -/
def nodeWF : TrieNode → Prop
  | .mk cs _ _ => (cs.map Prod.fst).Nodup ∧ nodeWFL cs
def nodeWFL : List (Char × TrieNode) → Prop
  | [] => True
  | (_, t) :: rest => nodeWF t ∧ nodeWFL rest
end

mutual
/-- The actual number of nodes of the subtree. -/
def countNodes : TrieNode → Nat
  | .mk cs _ _ => 1 + countNodesL cs
def countNodesL : List (Char × TrieNode) → Nat
  | [] => 0
  | (_, t) :: rest => countNodes t + countNodesL rest
end

mutual
/-- The actual number of terminal nodes of the subtree. -/
def countWords : TrieNode → Nat
  | .mk cs iw _ =>
    (if iw then 1 else 0) + countWordsL cs
def countWordsL : List (Char × TrieNode) → Nat
  | [] => 0
  | (_, t) :: rest => countWords t + countWordsL rest
end

mutual
/-- The `(freq, word)` items of the subtree in exactly the order in which
`_collect_all` visits terminal nodes (ascending-symbol depth first). -/
def dfsItems : TrieNode → List Char → List Item
  | .mk cs iw fq, cur =>
    (if iw then [(fq, cur)] else []) ++ dfsItemsL (sortChildren cs) cur
termination_by n _ => nodeWeight n
decreasing_by apply sortChildren_weight_lt
def dfsItemsL : List (Char × TrieNode) → List Char → List Item
  | [], _ => []
  | (c, t) :: rest, cur => dfsItems t (cur ++ [c]) ++ dfsItemsL rest cur
termination_by l _ => listWeight l
decreasing_by all_goals simp [listWeight, nodeWeight] <;> omega
end

/-- The states reachable from a fresh `Trie()` by the mutating public
operations, inserting only words satisfying `P` (`contains`, `complete`,
`stats` and `items` are non-mutating: they return answers, not a new
state, so they do not appear). -/
inductive Reach (P : List Char → Prop) : Trie → Prop where
  | init : Reach P Trie.init
  | insert {t : Trie} (w : List Char) (fq : ℚ) (hw : P w) (ht : Reach P t) :
      Reach P (t.insert w fq)
  | remove {t : Trie} (w : List Char) (ht : Reach P t) :
      Reach P (t.remove w).1

/-- Reachable by arbitrary insertions and removals. -/
def Reachable : Trie → Prop := Reach (fun _ => True)

/-- Structural induction principle for the nested inductive `TrieNode`. -/
def TrieNode.ind (P : TrieNode → Prop)
    (h : ∀ cs iw fq, (∀ c t, (c, t) ∈ cs → P t) → P (.mk cs iw fq)) :
    ∀ t, P t
  | .mk cs iw fq => h cs iw fq (fun _c t hm => TrieNode.ind P h t)
termination_by t => sizeOf t
decreasing_by
  have h1 := List.sizeOf_lt_of_mem hm
  simp at *
  omega

/-! ## Basic rewriting lemmas -/

@[simp] theorem TrieNode.children_mk (cs iw fq) :
    (TrieNode.mk cs iw fq).children = cs := rfl

@[simp] theorem TrieNode.is_word_mk (cs iw fq) :
    (TrieNode.mk cs iw fq).is_word = iw := rfl

@[simp] theorem TrieNode.freq_mk (cs iw fq) :
    (TrieNode.mk cs iw fq).freq = fq := rfl

@[simp] theorem findNode_nil (n : TrieNode) : findNode n [] = some n := rfl

theorem findNode_cons (cs iw fq c rest) :
    findNode (.mk cs iw fq) (c :: rest) =
      match lookupA cs c with
      | none => none
      | some child => findNode child rest := rfl

@[simp] theorem containsN_nil (n : TrieNode) : containsN n [] = n.is_word := rfl

theorem containsN_cons (cs iw fq c rest) :
    containsN (.mk cs iw fq) (c :: rest) =
      match lookupA cs c with
      | none => false
      | some child => containsN child rest := by
  cases h : lookupA cs c <;> simp [containsN, findNode_cons, h]

theorem findNode_append (n : TrieNode) (a b : List Char) :
    findNode n (a ++ b) = (findNode n a).bind (fun m => findNode m b) := by
  induction a generalizing n with
  | nil => simp
  | cons c rest ih =>
    cases n with
    | mk cs iw fq =>
      cases h : lookupA cs c <;> simp [findNode_cons, h, ih]

@[simp] theorem noDead_mk (cs iw fq) : noDead (.mk cs iw fq) = noDeadL cs := by
  simp [noDead]

@[simp] theorem nodeWF_mk (cs iw fq) :
    nodeWF (.mk cs iw fq) = ((cs.map Prod.fst).Nodup ∧ nodeWFL cs) := by
  simp [nodeWF]

@[simp] theorem countNodes_mk (cs iw fq) :
    countNodes (.mk cs iw fq) = 1 + countNodesL cs := by
  simp [countNodes]

@[simp] theorem countWords_mk (cs iw fq) :
    countWords (.mk cs iw fq) = (if iw then 1 else 0) + countWordsL cs := by
  simp [countWords]

theorem live_mk (cs iw fq) : live (.mk cs iw fq) ↔ (cs ≠ [] ∨ iw = true) := by
  simp [live]

/-! ## Association-list lemmas -/

theorem lookupA_eq_none_iff {cs : List (Char × TrieNode)} {x : Char} :
    lookupA cs x = none ↔ x ∉ cs.map Prod.fst := by
  induction cs with
  | nil => simp [lookupA]
  | cons p rest ih =>
    obtain ⟨c, t⟩ := p
    by_cases h : x = c <;> simp [lookupA, h, ih]

theorem lookupA_mem {cs : List (Char × TrieNode)} {x : Char} {u : TrieNode}
    (h : lookupA cs x = some u) : (x, u) ∈ cs := by
  induction cs with
  | nil => simp [lookupA] at h
  | cons p rest ih =>
    obtain ⟨c, t⟩ := p
    by_cases hx : x = c
    · subst hx
      simp [lookupA] at h
      subst h; simp
    · simp [lookupA, hx] at h
      simp [ih h]

theorem lookupA_of_mem_nodup {cs : List (Char × TrieNode)} {x : Char} {u : TrieNode}
    (hnd : (cs.map Prod.fst).Nodup) (h : (x, u) ∈ cs) : lookupA cs x = some u := by
  induction cs with
  | nil => simp at h
  | cons p rest ih =>
    obtain ⟨c, t⟩ := p
    obtain ⟨hc, hrest⟩ := List.nodup_cons.mp hnd
    rcases List.mem_cons.mp h with h1 | h1
    · injection h1 with h2 h3
      subst h2; subst h3
      simp [lookupA]
    · have hxc : x ≠ c := by
        rintro rfl
        exact hc (List.mem_map.mpr ⟨(x, u), h1, rfl⟩)
      simp [lookupA, hxc, ih hrest h1]

theorem map_fst_updateA (cs : List (Char × TrieNode)) (x : Char) (v : TrieNode) :
    (updateA cs x v).map Prod.fst = cs.map Prod.fst := by
  induction cs with
  | nil => simp [updateA]
  | cons p rest ih =>
    obtain ⟨c, t⟩ := p
    by_cases h : x = c <;> simp [updateA, h, ih]

theorem lookupA_updateA_self {cs : List (Char × TrieNode)} {x : Char} {u : TrieNode}
    (v : TrieNode) (h : lookupA cs x = some u) :
    lookupA (updateA cs x v) x = some v := by
  induction cs with
  | nil => simp [lookupA] at h
  | cons p rest ih =>
    obtain ⟨c, t⟩ := p
    by_cases hx : x = c
    · subst hx; simp [updateA, lookupA]
    · simp [lookupA, hx] at h
      simp [updateA, hx, lookupA, ih h]

theorem lookupA_updateA_ne {cs : List (Char × TrieNode)} {x y : Char}
    (v : TrieNode) (h : y ≠ x) :
    lookupA (updateA cs x v) y = lookupA cs y := by
  induction cs with
  | nil => simp [updateA]
  | cons p rest ih =>
    obtain ⟨c, t⟩ := p
    by_cases hx : x = c
    · subst hx; simp [updateA, lookupA, h, ih]
    · by_cases hy : y = c <;> simp [updateA, lookupA, hx, hy, ih]

theorem mem_updateA {cs : List (Char × TrieNode)} {x : Char} {v : TrieNode}
    {p : Char × TrieNode} (h : p ∈ updateA cs x v) : p ∈ cs ∨ p = (x, v) := by
  induction cs with
  | nil => simp [updateA] at h
  | cons q rest ih =>
    obtain ⟨c, t⟩ := q
    by_cases hx : x = c
    · subst hx
      rcases List.mem_cons.mp (by simpa [updateA] using h) with h1 | h1
      · right; exact h1
      · left; exact List.mem_cons_of_mem _ h1
    · rcases List.mem_cons.mp (by simpa [updateA, hx] using h) with h1 | h1
      · left; simp [h1]
      · rcases ih h1 with h2 | h2
        · left; exact List.mem_cons_of_mem _ h2
        · right; exact h2

theorem lookupA_eraseA_ne {cs : List (Char × TrieNode)} {x y : Char} (h : y ≠ x) :
    lookupA (eraseA cs x) y = lookupA cs y := by
  induction cs with
  | nil => simp [eraseA]
  | cons p rest ih =>
    obtain ⟨c, t⟩ := p
    by_cases hx : x = c
    · subst hx; simp [eraseA, lookupA, h, ih]
    · by_cases hy : y = c <;> simp [eraseA, lookupA, hx, hy, ih]

theorem map_fst_eraseA_sublist (cs : List (Char × TrieNode)) (x : Char) :
    ((eraseA cs x).map Prod.fst).Sublist (cs.map Prod.fst) := by
  induction cs with
  | nil => simp [eraseA]
  | cons p rest ih =>
    obtain ⟨c, t⟩ := p
    by_cases hx : x = c
    · subst hx; simp [eraseA]
    · simpa [eraseA, hx] using ih.cons₂ c

theorem lookupA_eraseA_self {cs : List (Char × TrieNode)} {x : Char}
    (hnd : (cs.map Prod.fst).Nodup) : lookupA (eraseA cs x) x = none := by
  induction cs with
  | nil => simp [eraseA, lookupA]
  | cons p rest ih =>
    obtain ⟨c, t⟩ := p
    obtain ⟨hc, hrest⟩ := List.nodup_cons.mp hnd
    by_cases hx : x = c
    · subst hx
      simp [eraseA, lookupA_eq_none_iff]
      intro u hu
      exact hc (List.mem_map.mpr ⟨(x, u), hu, rfl⟩)
    · simp [eraseA, lookupA, hx, ih hrest]

theorem mem_eraseA {cs : List (Char × TrieNode)} {x : Char} {p : Char × TrieNode}
    (h : p ∈ eraseA cs x) : p ∈ cs := by
  induction cs with
  | nil => simpa [eraseA] using h
  | cons q rest ih =>
    obtain ⟨c, t⟩ := q
    by_cases hx : x = c
    · subst hx
      exact List.mem_cons_of_mem _ (by simpa [eraseA] using h)
    · rcases List.mem_cons.mp (by simpa [eraseA, hx] using h) with h1 | h1
      · simp [h1]
      · exact List.mem_cons_of_mem _ (ih h1)

theorem countNodesL_updateA {cs : List (Char × TrieNode)} {x : Char} {u : TrieNode}
    (v : TrieNode) (h : lookupA cs x = some u) :
    countNodesL (updateA cs x v) + countNodes u = countNodesL cs + countNodes v := by
  induction cs with
  | nil => simp [lookupA] at h
  | cons p rest ih =>
    obtain ⟨c, t⟩ := p
    by_cases hx : x = c
    · subst hx
      simp [lookupA] at h
      subst h
      simp [updateA, countNodesL]
      omega
    · simp [lookupA, hx] at h
      have := ih h
      simp [updateA, hx, countNodesL]
      omega

theorem countWordsL_updateA {cs : List (Char × TrieNode)} {x : Char} {u : TrieNode}
    (v : TrieNode) (h : lookupA cs x = some u) :
    countWordsL (updateA cs x v) + countWords u = countWordsL cs + countWords v := by
  induction cs with
  | nil => simp [lookupA] at h
  | cons p rest ih =>
    obtain ⟨c, t⟩ := p
    by_cases hx : x = c
    · subst hx
      simp [lookupA] at h
      subst h
      simp [updateA, countWordsL]
      omega
    · simp [lookupA, hx] at h
      have := ih h
      simp [updateA, hx, countWordsL]
      omega

theorem countNodesL_eraseA {cs : List (Char × TrieNode)} {x : Char} {u : TrieNode}
    (h : lookupA cs x = some u) :
    countNodesL (eraseA cs x) + countNodes u = countNodesL cs := by
  induction cs with
  | nil => simp [lookupA] at h
  | cons p rest ih =>
    obtain ⟨c, t⟩ := p
    by_cases hx : x = c
    · subst hx
      simp [lookupA] at h
      subst h
      simp [eraseA, countNodesL]
      omega
    · simp [lookupA, hx] at h
      have := ih h
      simp [eraseA, hx, countNodesL]
      omega

theorem countWordsL_eraseA {cs : List (Char × TrieNode)} {x : Char} {u : TrieNode}
    (h : lookupA cs x = some u) :
    countWordsL (eraseA cs x) + countWords u = countWordsL cs := by
  induction cs with
  | nil => simp [lookupA] at h
  | cons p rest ih =>
    obtain ⟨c, t⟩ := p
    by_cases hx : x = c
    · subst hx
      simp [lookupA] at h
      subst h
      simp [eraseA, countWordsL]
      omega
    · simp [lookupA, hx] at h
      have := ih h
      simp [eraseA, hx, countWordsL]
      omega

theorem lookupA_append (cs ds : List (Char × TrieNode)) (y : Char) :
    lookupA (cs ++ ds) y =
      match lookupA cs y with
      | some u => some u
      | none => lookupA ds y := by
  induction cs with
  | nil => simp [lookupA]
  | cons p rest ih =>
    obtain ⟨c, t⟩ := p
    by_cases hy : y = c <;> simp [lookupA, hy, ih]

theorem countNodesL_append (cs ds : List (Char × TrieNode)) :
    countNodesL (cs ++ ds) = countNodesL cs + countNodesL ds := by
  induction cs with
  | nil => simp [countNodesL]
  | cons p rest ih =>
    obtain ⟨c, t⟩ := p
    simp [countNodesL, ih]
    omega

theorem countWordsL_append (cs ds : List (Char × TrieNode)) :
    countWordsL (cs ++ ds) = countWordsL cs + countWordsL ds := by
  induction cs with
  | nil => simp [countWordsL]
  | cons p rest ih =>
    obtain ⟨c, t⟩ := p
    simp [countWordsL, ih]
    omega

/-! ## Membership forms of the structural predicates -/

theorem noDeadL_iff {cs : List (Char × TrieNode)} :
    noDeadL cs ↔ ∀ p ∈ cs, live p.2 ∧ noDead p.2 := by
  induction cs with
  | nil => simp [noDeadL]
  | cons p rest ih =>
    obtain ⟨c, t⟩ := p
    simp [noDeadL, ih, and_assoc]

theorem nodeWFL_iff {cs : List (Char × TrieNode)} :
    nodeWFL cs ↔ ∀ p ∈ cs, nodeWF p.2 := by
  induction cs with
  | nil => simp [nodeWFL]
  | cons p rest ih =>
    obtain ⟨c, t⟩ := p
    simp [nodeWFL, ih]

theorem noDeadL_of_perm {cs ds : List (Char × TrieNode)} (h : cs.Perm ds) :
    noDeadL cs → noDeadL ds := by
  intro h1
  rw [noDeadL_iff] at h1 ⊢
  intro p hp
  exact h1 p (h.symm.subset hp)

theorem nodeWFL_of_perm {cs ds : List (Char × TrieNode)} (h : cs.Perm ds) :
    nodeWFL cs → nodeWFL ds := by
  intro h1
  rw [nodeWFL_iff] at h1 ⊢
  intro p hp
  exact h1 p (h.symm.subset hp)

theorem noDeadL_updateA {cs : List (Char × TrieNode)} {x : Char} {v : TrieNode}
    (hnd : noDeadL cs) (hv : live v) (hv2 : noDead v) : noDeadL (updateA cs x v) := by
  rw [noDeadL_iff] at hnd ⊢
  intro p hp
  rcases mem_updateA hp with h1 | h1
  · exact hnd p h1
  · subst h1; exact ⟨hv, hv2⟩

theorem nodeWFL_updateA {cs : List (Char × TrieNode)} {x : Char} {v : TrieNode}
    (hnd : nodeWFL cs) (hv : nodeWF v) : nodeWFL (updateA cs x v) := by
  rw [nodeWFL_iff] at hnd ⊢
  intro p hp
  rcases mem_updateA hp with h1 | h1
  · exact hnd p h1
  · subst h1; exact hv

theorem noDeadL_eraseA {cs : List (Char × TrieNode)} {x : Char}
    (hnd : noDeadL cs) : noDeadL (eraseA cs x) := by
  rw [noDeadL_iff] at hnd ⊢
  exact fun p hp => hnd p (mem_eraseA hp)

theorem nodeWFL_eraseA {cs : List (Char × TrieNode)} {x : Char}
    (hnd : nodeWFL cs) : nodeWFL (eraseA cs x) := by
  rw [nodeWFL_iff] at hnd ⊢
  exact fun p hp => hnd p (mem_eraseA hp)

theorem noDeadL_append_singleton {cs : List (Char × TrieNode)} {c : Char} {v : TrieNode}
    (hnd : noDeadL cs) (hv : live v) (hv2 : noDead v) : noDeadL (cs ++ [(c, v)]) := by
  rw [noDeadL_iff] at hnd ⊢
  intro p hp
  rcases List.mem_append.mp hp with h1 | h1
  · exact hnd p h1
  · simp at h1
    subst h1
    exact ⟨hv, hv2⟩

theorem nodeWFL_append_singleton {cs : List (Char × TrieNode)} {c : Char} {v : TrieNode}
    (hnd : nodeWFL cs) (hv : nodeWF v) : nodeWFL (cs ++ [(c, v)]) := by
  rw [nodeWFL_iff] at hnd ⊢
  intro p hp
  rcases List.mem_append.mp hp with h1 | h1
  · exact hnd p h1
  · simp at h1
    subst h1
    exact hv

theorem noDeadL_mem {cs : List (Char × TrieNode)} {c : Char} {u : TrieNode}
    (hnd : noDeadL cs) (h : lookupA cs c = some u) : live u ∧ noDead u :=
  noDeadL_iff.mp hnd (c, u) (lookupA_mem h)

theorem nodeWFL_mem {cs : List (Char × TrieNode)} {c : Char} {u : TrieNode}
    (hnd : nodeWFL cs) (h : lookupA cs c = some u) : nodeWF u :=
  nodeWFL_iff.mp hnd (c, u) (lookupA_mem h)

/-! ## `remove`: failure and success structure -/

/-- Removal fails exactly when the path is missing or its end is not
terminal (and then the Python method returns before touching anything),
whatever the incoming symbol of the node is. -/
theorem removeGo_eq_none_iff (cin : Option Char) (n : TrieNode) (w : List Char) :
    removeGo cin n w = none ↔
      (findNode n w = none ∨ ∃ m, findNode n w = some m ∧ m.is_word = false) := by
  induction w generalizing cin n with
  | nil =>
    cases n with
    | mk cs iw fq =>
      cases iw <;> simp [removeGo]
  | cons c rest ih =>
    cases n with
    | mk cs iw fq =>
      cases h : lookupA cs c with
      | none => simp [removeGo, findNode_cons, h]
      | some child =>
        cases h2 : removeGo (some c) child rest with
        | none =>
          have := (ih (some c) child).mp h2
          simp [removeGo, findNode_cons, h, h2]
          rcases this with h3 | ⟨m, h3, h4⟩
          · left; exact h3
          · right; exact ⟨m, h3, h4⟩
        | some r =>
          obtain ⟨child', childDead, cnt⟩ := r
          have hne : removeGo (some c) child rest ≠ none := by simp [h2]
          have := (ih (some c) child).not.mp (by simpa using hne)
          push_neg at this
          obtain ⟨h3, h4⟩ := this
          cases h5 : findNode child rest with
          | none => exact absurd h5 h3
          | some m =>
            have h6 : m.is_word = true := by simpa using h4 m h5
            cases childDead with
            | false => simp [removeGo, findNode_cons, h, h2, h5, h6]
            | true =>
              cases cin with
              | none => simp [removeGo, findNode_cons, h, h2, h5, h6]
              | some ci =>
                by_cases h7 : (lookupA (updateA cs c child') ci).isSome <;>
                  simp [removeGo, findNode_cons, h, h2, h5, h6, h7]

theorem containsN_of_empty_children {iw : Bool} {fq : ℚ} (h : iw = false) (v : List Char) :
    containsN (.mk [] iw fq) v = false := by
  cases v with
  | nil => simp [h]
  | cons c rest => simp [containsN_cons, lookupA]

theorem updateA_ne_nil {cs : List (Char × TrieNode)} {x : Char} {v : TrieNode}
    (h : cs ≠ []) : updateA cs x v ≠ [] := by
  intro he
  have := map_fst_updateA cs x v
  rw [he] at this
  exact h (by
    cases cs with
    | nil => rfl
    | cons p rest => simp at this)

/-- A successful removal preserves the key discipline of the children
dictionaries: keys stay pairwise distinct in every node (the only
mutations are an in-place child update and dict deletions). -/
theorem removeGo_wf {w : List Char} :
    ∀ {cin : Option Char} {n n' : TrieNode} {dead : Bool} {cnt : Nat},
    nodeWF n → removeGo cin n w = some (n', dead, cnt) → nodeWF n' := by
  induction w with
  | nil =>
    intro cin n n' dead cnt hwf h
    obtain ⟨cs, iw, fq⟩ := n
    cases iw with
    | false => simp [removeGo] at h
    | true =>
      simp [removeGo] at h
      rw [← h.1]
      simpa using hwf
  | cons c rest ih =>
    intro cin n n' dead cnt hwf h
    obtain ⟨cs, iw, fq⟩ := n
    obtain ⟨hnd, hwfl⟩ := (nodeWF_mk cs iw fq) ▸ hwf
    cases hlk : lookupA cs c with
    | none => simp [removeGo, hlk] at h
    | some child =>
      cases hrg : removeGo (some c) child rest with
      | none => simp [removeGo, hlk, hrg] at h
      | some r =>
        obtain ⟨child', childDead, ccnt⟩ := r
        have hwfc : nodeWF child' := ih (nodeWFL_mem hwfl hlk) hrg
        have hwf1 : nodeWF (.mk (updateA cs c child') iw fq) := by
          refine (nodeWF_mk _ _ _) ▸ ⟨?_, nodeWFL_updateA hwfl hwfc⟩
          rw [map_fst_updateA]
          exact hnd
        have hwf2 : ∀ ci, nodeWF (.mk (eraseA (updateA cs c child') ci) iw fq) := by
          intro ci
          obtain ⟨hnd1, hwfl1⟩ := (nodeWF_mk _ iw fq) ▸ hwf1
          refine (nodeWF_mk _ _ _) ▸ ⟨?_, nodeWFL_eraseA hwfl1⟩
          exact (map_fst_eraseA_sublist _ ci).nodup hnd1
        cases childDead with
        | false =>
          simp [removeGo, hlk, hrg] at h
          rw [← h.1]
          exact hwf1
        | true =>
          cases cin with
          | none =>
            simp [removeGo, hlk, hrg] at h
            rw [← h.1]
            exact hwf1
          | some ci =>
            by_cases h7 : (lookupA (updateA cs c child') ci).isSome
            · simp [removeGo, hlk, hrg, h7] at h
              rw [← h.1]
              exact hwf2 ci
            · simp [removeGo, hlk, hrg, h7] at h
              rw [← h.1]
              exact hwf1


/-! ## `insert`: structure lemmas -/

theorem nodeWF_init : nodeWF TrieNode.init := by
  simp [TrieNode.init, nodeWFL]

theorem noDead_init : noDead TrieNode.init := by
  simp [TrieNode.init, noDeadL]

/-- Full structure of the `insert` recursion: the rebuilt node contains
exactly the old words plus `w`, stores `fq` at `w`, preserves
well-formedness and deadlessness, is itself live, and the reported
word/node increments are exact. -/
theorem insertGo_spec (fq : ℚ) (w : List Char) :
    ∀ n : TrieNode,
    (∀ v, containsN (insertGo fq n w).1 v = (containsN n v || decide (v = w))) ∧
    (∃ m', findNode (insertGo fq n w).1 w = some m' ∧ m'.is_word = true ∧ m'.freq = fq) ∧
    (nodeWF n → nodeWF (insertGo fq n w).1) ∧
    (noDead n → noDead (insertGo fq n w).1) ∧
    live (insertGo fq n w).1 ∧
    countWords (insertGo fq n w).1 = countWords n + (insertGo fq n w).2.2 ∧
    countNodes (insertGo fq n w).1 = countNodes n + (insertGo fq n w).2.1 := by
  induction w with
  | nil =>
    intro n
    obtain ⟨cs, iw, f0⟩ := n
    refine ⟨?_, ⟨.mk cs true fq, by simp [insertGo], by simp, by simp⟩, ?_, ?_, ?_, ?_, ?_⟩
    · intro v
      cases v with
      | nil => simp [insertGo]
      | cons c rest => simp [insertGo, containsN_cons]
    · intro h; simpa [insertGo] using (by simpa using h)
    · intro h; simpa [insertGo] using (by simpa using h)
    · simp [insertGo, live]
    · cases iw <;> simp [insertGo] <;> omega
    · simp [insertGo]
  | cons c rest ih =>
    intro n
    obtain ⟨cs, iw, f0⟩ := n
    cases hlk : lookupA cs c with
    | some child =>
      obtain ⟨ih1, ih2, ih3, ih4, ih5, ih6, ih7⟩ := ih child
      have hne : cs ≠ [] := by
        intro he
        rw [he] at hlk
        simp [lookupA] at hlk
      refine ⟨?_, ?_, ?_, ?_, ?_, ?_, ?_⟩
      · intro v
        cases v with
        | nil => simp [insertGo, hlk]
        | cons c' rest' =>
          by_cases hc : c' = c
          · subst hc
            simp only [insertGo, hlk]
            rw [containsN_cons, containsN_cons,
              lookupA_updateA_self (insertGo fq child rest).1 hlk, hlk]
            simpa using ih1 rest'
          · simp only [insertGo, hlk]
            rw [containsN_cons, containsN_cons,
              lookupA_updateA_ne (insertGo fq child rest).1 hc]
            cases lookupA cs c' <;> simp [hc]
      · obtain ⟨m', hm1, hm2, hm3⟩ := ih2
        refine ⟨m', ?_, hm2, hm3⟩
        simp only [insertGo, hlk]
        rw [findNode_cons, lookupA_updateA_self (insertGo fq child rest).1 hlk]
        exact hm1
      · intro h
        obtain ⟨hnd, hwfl⟩ := (nodeWF_mk cs iw f0) ▸ h
        simp only [insertGo, hlk]
        refine (nodeWF_mk _ _ _) ▸ ⟨?_, nodeWFL_updateA hwfl (ih3 (nodeWFL_mem hwfl hlk))⟩
        rw [map_fst_updateA]
        exact hnd
      · intro h
        have h5 := (noDead_mk cs iw f0) ▸ h
        obtain ⟨_, hndchild⟩ := noDeadL_mem h5 hlk
        simp only [insertGo, hlk]
        exact (noDead_mk _ _ _) ▸ noDeadL_updateA h5 ih5 (ih4 hndchild)
      · simp only [insertGo, hlk]
        rw [live_mk]
        left
        exact updateA_ne_nil hne
      · have := countWordsL_updateA (insertGo fq child rest).1 hlk
        simp only [insertGo, hlk]
        simp only [countWords_mk]
        omega
      · have := countNodesL_updateA (insertGo fq child rest).1 hlk
        simp only [insertGo, hlk]
        simp only [countNodes_mk]
        omega
    | none =>
      obtain ⟨ih1, ih2, ih3, ih4, ih5, ih6, ih7⟩ := ih TrieNode.init
      have hcnot : c ∉ cs.map Prod.fst := lookupA_eq_none_iff.mp hlk
      refine ⟨?_, ?_, ?_, ?_, ?_, ?_, ?_⟩
      · intro v
        cases v with
        | nil => simp [insertGo, hlk]
        | cons c' rest' =>
          by_cases hc : c' = c
          · subst hc
            simp only [insertGo, hlk]
            rw [containsN_cons, containsN_cons, lookupA_append]
            rw [hlk]
            simp [lookupA]
            have h3 := ih1 rest'
            have h4 : containsN TrieNode.init rest' = false :=
              containsN_of_empty_children rfl rest'
            rw [h4] at h3
            simpa using h3
          · simp only [insertGo, hlk]
            rw [containsN_cons, containsN_cons, lookupA_append]
            cases h2 : lookupA cs c' <;> simp [lookupA, hc]
      · obtain ⟨m', hm1, hm2, hm3⟩ := ih2
        refine ⟨m', ?_, hm2, hm3⟩
        simp only [insertGo, hlk]
        rw [findNode_cons, lookupA_append, hlk]
        simp [lookupA]
        exact hm1
      · intro h
        obtain ⟨hnd, hwfl⟩ := (nodeWF_mk cs iw f0) ▸ h
        simp only [insertGo, hlk]
        refine (nodeWF_mk _ _ _) ▸ ⟨?_, nodeWFL_append_singleton hwfl (ih3 nodeWF_init)⟩
        rw [List.map_append, List.nodup_append]
        refine ⟨hnd, by simp, ?_⟩
        intro x hx hx2
        simp at hx2
        subst hx2
        exact hcnot hx
      · intro h
        have h5 := (noDead_mk cs iw f0) ▸ h
        simp only [insertGo, hlk]
        exact (noDead_mk _ _ _) ▸ noDeadL_append_singleton h5 ih5 (ih4 noDead_init)
      · simp only [insertGo, hlk]
        rw [live_mk]
        left
        simp
      · have := countWordsL_append cs [(c, (insertGo fq TrieNode.init rest).1)]
        simp only [insertGo, hlk]
        simp only [countWords_mk]
        rw [this]
        have h0 : countWords TrieNode.init = 0 := by simp [TrieNode.init, countWordsL]
        simp [countWordsL]
        omega
      · have := countNodesL_append cs [(c, (insertGo fq TrieNode.init rest).1)]
        simp only [insertGo, hlk]
        simp only [countNodes_mk]
        rw [this]
        have h0 : countNodes TrieNode.init = 1 := by simp [TrieNode.init, countNodesL]
        simp [countNodesL]
        omega

/-- Re-inserting a word that is already present creates no node and does
not change the word increment. -/
theorem insertGo_nochange (fq : ℚ) (w : List Char) :
    ∀ n : TrieNode, containsN n w = true →
      (insertGo fq n w).2.1 = 0 ∧ (insertGo fq n w).2.2 = 0 := by
  induction w with
  | nil =>
    intro n h
    obtain ⟨cs, iw, f0⟩ := n
    simp at h
    simp [insertGo, h]
  | cons c rest ih =>
    intro n h
    obtain ⟨cs, iw, f0⟩ := n
    rw [containsN_cons] at h
    cases hlk : lookupA cs c with
    | none => rw [hlk] at h; simp at h
    | some child =>
      rw [hlk] at h
      simp at h
      have := ih child h
      simp [insertGo, hlk, this]

/-! ## The reachable-state invariant -/

/-- The one structural property that every operation of the program
preserves: the children keys of every node are pairwise distinct (they
form a Python dict).  Note that the faithful `remove` does NOT preserve
freedom from dead branches, nor the exactness of the two counters: its
pruning step deletes by the wrong key. -/
theorem reach_wf {P : List Char → Prop} {t : Trie} (h : Reach P t) :
    nodeWF t.root := by
  induction h with
  | init => exact nodeWF_init
  | insert w fq hw ht ih =>
    rename_i t0
    obtain ⟨_, _, i3, _, _, _, _⟩ := insertGo_spec fq w t0.root
    exact i3 ih
  | remove w ht ih =>
    rename_i t0
    cases hrg : removeGo none t0.root w with
    | none => simpa [Trie.remove, hrg] using ih
    | some r =>
      obtain ⟨n', dead, cnt⟩ := r
      have hres : ((t0.remove w).1).root = n' := by
        simp [Trie.remove, hrg]
      rw [hres]
      exact removeGo_wf ih hrg

/-! ## Order facts for the heap and output orders -/

instance : IsTrans Item ile := by
  constructor
  rintro ⟨qa, va⟩ ⟨qb, vb⟩ ⟨qc, vc⟩ (hab | ⟨hab, hab2⟩) (hbc | ⟨hbc, hbc2⟩)
  · exact Or.inl (lt_trans hab hbc)
  · exact Or.inl (hbc ▸ hab)
  · exact Or.inl (hab ▸ hbc)
  · exact Or.inr ⟨hab.trans hbc, le_trans hab2 hbc2⟩

instance : IsTotal Item ile := by
  constructor
  rintro ⟨qa, va⟩ ⟨qb, vb⟩
  rcases lt_trichotomy qa qb with h | h | h
  · exact Or.inl (Or.inl h)
  · rcases le_total va vb with h2 | h2
    · exact Or.inl (Or.inr ⟨h, h2⟩)
    · exact Or.inr (Or.inr ⟨h.symm, h2⟩)
  · exact Or.inr (Or.inl h)

instance : IsAntisymm Item ile := by
  constructor
  rintro ⟨qa, va⟩ ⟨qb, vb⟩ (hab | ⟨hab, hab2⟩) (hba | ⟨hba, hba2⟩)
  · exact absurd hba (lt_asymm hab)
  · rw [hba] at hab
    exact absurd hab (lt_irrefl qa)
  · rw [hab] at hba
    exact absurd hba (lt_irrefl qb)
  · simp only [Prod.mk.injEq]
    exact ⟨hab, le_antisymm hab2 hba2⟩

instance : IsTrans Item olex := by
  constructor
  rintro ⟨qa, va⟩ ⟨qb, vb⟩ ⟨qc, vc⟩ (hab | ⟨hab, hab2⟩) (hbc | ⟨hbc, hbc2⟩)
  · exact Or.inl (lt_trans hbc hab)
  · exact Or.inl (hbc ▸ hab)
  · exact Or.inl (hab ▸ hbc)
  · exact Or.inr ⟨hab.trans hbc, le_trans hab2 hbc2⟩

instance : IsTotal Item olex := by
  constructor
  rintro ⟨qa, va⟩ ⟨qb, vb⟩
  rcases lt_trichotomy qa qb with h | h | h
  · exact Or.inr (Or.inl h)
  · rcases le_total va vb with h2 | h2
    · exact Or.inl (Or.inr ⟨h, h2⟩)
    · exact Or.inr (Or.inr ⟨h.symm, h2⟩)
  · exact Or.inl (Or.inl h)

instance : IsTotal (Char × TrieNode) (fun a b => a.1 ≤ b.1) :=
  ⟨fun a b => le_total a.1 b.1⟩

instance : IsTrans (Char × TrieNode) (fun a b => a.1 ≤ b.1) :=
  ⟨fun _ _ _ h1 h2 => le_trans h1 h2⟩

/-! ## The bounded selection: fold characterization -/

/-- Ascending insertion sort under the heap tuple order. -/
def sortI (l : List Item) : List Item := l.insertionSort ile

theorem sortI_sorted (l : List Item) : (sortI l).Sorted ile :=
  List.sorted_insertionSort ile l

theorem sortI_perm (l : List Item) : (sortI l).Perm l :=
  List.perm_insertionSort ile l

theorem orderedInsert_of_forall_le {x : Item} {t : List Item}
    (h : ∀ y ∈ t, ile x y) : t.orderedInsert ile x = x :: t := by
  cases t with
  | nil => rfl
  | cons b l => exact List.orderedInsert_of_le ile l (h b (by simp))

theorem tail_orderedInsert_drop {s : List Item} (hs : s.Sorted ile) (x : Item) :
    ∀ d : Nat, ((s.drop d).orderedInsert ile x).tail = (s.orderedInsert ile x).drop (d + 1) := by
  induction s with
  | nil =>
    intro d
    simp [List.orderedInsert]
  | cons a s' ih =>
    intro d
    cases d with
    | zero => simp
    | succ e =>
      have hs' : s'.Sorted ile := hs.of_cons
      by_cases hxa : ile x a
      · rw [List.orderedInsert_of_le ile s' hxa]
        simp only [List.drop_succ_cons]
        have hforall : ∀ y ∈ s'.drop e, ile x y := by
          intro y hy
          exact Trans.trans hxa (List.rel_of_sorted_cons hs y (List.mem_of_mem_drop hy))
        rw [orderedInsert_of_forall_le hforall]
        simp
      · have : (a :: s').orderedInsert ile x = a :: s'.orderedInsert ile x := by
          simp [List.orderedInsert, hxa]
        rw [this]
        simp only [List.drop_succ_cons]
        exact ih hs' e

theorem intLt_iff_toNat (m : Nat) (k : Int) : ((m : Int) < k) ↔ m < k.toNat := by
  omega

/-- One heap step on the top part of a sorted seen-list equals inserting
the new element and re-taking the top part. -/
theorem heapStep_drop {s : List Item} (hs : s.Sorted ile) (x : Item) (k : Int) :
    heapStep k (s.drop (s.length - k.toNat)) x =
      (s.orderedInsert ile x).drop (s.length + 1 - k.toNat) := by
  by_cases hm : s.length < k.toNat
  · have h0 : s.length - k.toNat = 0 := by omega
    have h1 : s.length + 1 - k.toNat = 0 := by omega
    rw [h0, h1]
    simp only [List.drop_zero]
    have hcond : ((s.length : Int) < k) := (intLt_iff_toNat _ _).mpr hm
    simp [heapStep, hcond, heapPush]
  · have hlen : (s.drop (s.length - k.toNat)).length = k.toNat := by
      simp [List.length_drop]
      omega
    have hcond : ¬ (((s.drop (s.length - k.toNat)).length : Int) < k) := by
      rw [hlen]
      omega
    rw [heapStep, if_neg hcond]
    unfold heapPushPop
    rw [tail_orderedInsert_drop hs x]
    congr 1
    omega

theorem sortI_append_singleton (seen : List Item) (x : Item) :
    sortI (seen ++ [x]) = (sortI seen).orderedInsert ile x := by
  apply List.eq_of_perm_of_sorted (r := ile)
  · have p1 : (sortI (seen ++ [x])).Perm (seen ++ [x]) := sortI_perm _
    have p2 : (seen ++ [x]).Perm (x :: seen) := List.perm_append_singleton x seen
    have p3 : (x :: sortI seen).Perm (x :: seen) := List.Perm.cons x (sortI_perm seen)
    have p4 : ((sortI seen).orderedInsert ile x).Perm (x :: sortI seen) :=
      List.perm_orderedInsert ile x (sortI seen)
    exact (p1.trans p2).trans ((p4.trans p3).symm)
  · exact sortI_sorted _
  · exact (sortI_sorted seen).orderedInsert x _

/-- Folding the heap step over any item sequence leaves, as heap contents,
the `min k |items|` greatest items in ascending order. -/
theorem foldl_heapStep_sorted (k : Int) :
    ∀ (l seen : List Item),
      List.foldl (heapStep k) ((sortI seen).drop (seen.length - k.toNat)) l =
        (sortI (seen ++ l)).drop ((seen ++ l).length - k.toNat) := by
  intro l
  induction l with
  | nil => intro seen; simp
  | cons x l ih =>
    intro seen
    rw [List.foldl_cons]
    have hlen : seen.length = (sortI seen).length := (List.length_insertionSort _ _).symm
    rw [hlen, heapStep_drop (sortI_sorted seen) x k]
    rw [← sortI_append_singleton seen x]
    have h2 := ih (seen ++ [x])
    rw [show (sortI (seen ++ [x])).drop ((sortI seen).length + 1 - k.toNat) =
        (sortI (seen ++ [x])).drop ((seen ++ [x]).length - k.toNat) by
      congr 1
      simp [← hlen]] 
    rw [h2]
    simp

/-- The heap built from the empty heap over an item sequence. -/
theorem foldl_heapStep_nil (k : Int) (l : List Item) :
    List.foldl (heapStep k) [] l = (sortI l).drop (l.length - k.toNat) := by
  have := foldl_heapStep_sorted k l []
  simpa [sortI, List.insertionSort] using this

theorem mem_sortChildren {cs : List (Char × TrieNode)} {p : Char × TrieNode} :
    p ∈ sortChildren cs ↔ p ∈ cs :=
  List.Perm.mem_iff (List.perm_insertionSort _ cs)

theorem collectL_eq_foldl (k : Int) :
    ∀ (l : List (Char × TrieNode)) (cur : List Char) (heap : List Item),
      (∀ p ∈ l, ∀ cur' heap', collect k p.2 cur' heap' =
        List.foldl (heapStep k) heap' (dfsItems p.2 cur')) →
      collectL k l cur heap = List.foldl (heapStep k) heap (dfsItemsL l cur) := by
  intro l
  induction l with
  | nil =>
    intro cur heap _
    simp [collectL, dfsItemsL]
  | cons p rest ih =>
    intro cur heap hp
    obtain ⟨c, t⟩ := p
    rw [collectL, dfsItemsL, List.foldl_append]
    rw [hp (c, t) (by simp) (cur ++ [c]) heap]
    exact ih cur _ (fun q hq => hp q (by simp [hq]))

theorem collect_eq_foldl (k : Int) :
    ∀ (n : TrieNode) (cur : List Char) (heap : List Item),
      collect k n cur heap = List.foldl (heapStep k) heap (dfsItems n cur) := by
  intro n
  induction n using TrieNode.ind with
  | _ cs iw fq ih =>
    intro cur heap
    rw [collect, dfsItems, List.foldl_append]
    have h1 : collectL k (sortChildren cs) cur
        (if iw = true then heapStep k heap (fq, cur) else heap) =
        List.foldl (heapStep k)
          (if iw = true then heapStep k heap (fq, cur) else heap)
          (dfsItemsL (sortChildren cs) cur) := by
      apply collectL_eq_foldl
      intro p hp cur' heap'
      exact ih p.1 p.2 (by simpa using mem_sortChildren.mp hp) cur' heap'
    rw [h1]
    congr 1
    cases iw <;> simp

/-! ## Semantics of the depth-first item enumeration -/

theorem countWordsL_perm {cs ds : List (Char × TrieNode)} (h : cs.Perm ds) :
    countWordsL cs = countWordsL ds := by
  induction h with
  | nil => rfl
  | cons x _ ih => cases x; simp [countWordsL, ih]
  | swap x y _ => cases x; cases y; simp [countWordsL]; omega
  | trans _ _ ih1 ih2 => omega

theorem dfsItemsL_length (cur : List Char) :
    ∀ (l : List (Char × TrieNode)),
      (∀ p ∈ l, ∀ cur', (dfsItems p.2 cur').length = countWords p.2) →
      (dfsItemsL l cur).length = countWordsL l := by
  intro l
  induction l with
  | nil => intro _; simp [dfsItemsL, countWordsL]
  | cons p rest ih =>
    intro hp
    obtain ⟨c, t⟩ := p
    rw [dfsItemsL]
    simp only [List.length_append]
    rw [hp (c, t) (by simp) (cur ++ [c]), ih (fun q hq => hp q (by simp [hq])),
      countWordsL]

theorem dfsItems_length : ∀ (n : TrieNode) (cur : List Char),
    (dfsItems n cur).length = countWords n := by
  intro n
  induction n using TrieNode.ind with
  | _ cs iw fq ih =>
    intro cur
    rw [dfsItems]
    simp only [List.length_append]
    have h1 : (dfsItemsL (sortChildren cs) cur).length = countWordsL (sortChildren cs) := by
      apply dfsItemsL_length
      intro p hp cur'
      exact ih p.1 p.2 (by simpa using mem_sortChildren.mp hp) cur'
    have h2 : countWordsL (sortChildren cs) = countWordsL cs :=
      countWordsL_perm (List.perm_insertionSort _ cs)
    rw [h1, h2]
    cases iw <;> simp [countWords]

theorem mem_dfsItemsL {l : List (Char × TrieNode)} {cur : List Char} {x : Item} :
    x ∈ dfsItemsL l cur ↔ ∃ p ∈ l, x ∈ dfsItems p.2 (cur ++ [p.1]) := by
  induction l with
  | nil => simp [dfsItemsL]
  | cons p rest ih =>
    obtain ⟨c, t⟩ := p
    rw [dfsItemsL]
    simp only [List.mem_append, ih, List.mem_cons]
    constructor
    · rintro (h | ⟨q, hq, hx⟩)
      · exact ⟨(c, t), Or.inl rfl, h⟩
      · exact ⟨q, Or.inr hq, hx⟩
    · rintro ⟨q, hq | hq, hx⟩
      · subst hq; exact Or.inl hx
      · exact Or.inr ⟨q, hq, hx⟩

theorem mem_dfsItems : ∀ (n : TrieNode), nodeWF n → ∀ (cur : List Char) (x : Item),
    x ∈ dfsItems n cur ↔
      ∃ suffix m, x.2 = cur ++ suffix ∧ findNode n suffix = some m ∧
        m.is_word = true ∧ x.1 = m.freq := by
  intro n
  induction n using TrieNode.ind with
  | _ cs iw fq ih =>
    intro hwf cur x
    obtain ⟨hnd, hwfl⟩ := (nodeWF_mk cs iw fq) ▸ hwf
    rw [dfsItems]
    rw [List.mem_append, mem_dfsItemsL]
    constructor
    · rintro (hhead | ⟨⟨c, t⟩, hp, hx⟩)
      · cases iw with
        | false => simp at hhead
        | true =>
          simp at hhead
          refine ⟨[], .mk cs true fq, ?_, by simp, by simp, ?_⟩
          · simp [hhead]
          · simp [hhead]
      · have hmem : (c, t) ∈ cs := mem_sortChildren.mp hp
        have hwt : nodeWF t := nodeWFL_iff.mp hwfl (c, t) hmem
        obtain ⟨s, m, hxs, hfind, hw, hfq⟩ := (ih c t hmem hwt (cur ++ [c]) x).mp hx
        refine ⟨c :: s, m, by simp [hxs], ?_, hw, hfq⟩
        rw [findNode_cons, lookupA_of_mem_nodup hnd hmem]
        exact hfind
    · rintro ⟨suffix, m, hxs, hfind, hw, hfq⟩
      cases suffix with
      | nil =>
        simp at hfind
        subst hfind
        simp at hw
        subst hw
        left
        obtain ⟨xq, xv⟩ := x
        simp at hxs hfq
        simp [hxs, hfq]
      | cons c s =>
        rw [findNode_cons] at hfind
        cases hlk : lookupA cs c with
        | none => rw [hlk] at hfind; simp at hfind
        | some child =>
          rw [hlk] at hfind
          right
          have hmem : (c, child) ∈ cs := lookupA_mem hlk
          have hwt : nodeWF child := nodeWFL_iff.mp hwfl (c, child) hmem
          refine ⟨(c, child), mem_sortChildren.mpr hmem, ?_⟩
          exact (ih c child hmem hwt (cur ++ [c]) x).mpr
            ⟨s, m, by simp [hxs], hfind, hw, hfq⟩

/-! ## Lexicographic facts about the enumerated words -/

theorem word_lt_append (cur : List Char) (x : Char) (s : List Char) :
    cur < cur ++ x :: s := by
  show List.Lex (· < ·) cur (cur ++ x :: s)
  induction cur with
  | nil => exact List.Lex.nil
  | cons a l ih => exact List.Lex.cons ih

theorem word_lt_of_key_lt {c c' : Char} (h : c < c') (cur s s' : List Char) :
    cur ++ c :: s < cur ++ c' :: s' := by
  show List.Lex (· < ·) (cur ++ c :: s) (cur ++ c' :: s')
  induction cur with
  | nil => exact List.Lex.rel h
  | cons a l ih => exact List.Lex.cons ih

theorem sortChildren_keys_lt {cs : List (Char × TrieNode)}
    (hnd : (cs.map Prod.fst).Nodup) :
    (sortChildren cs).Pairwise (fun p q : Char × TrieNode => p.1 < q.1) := by
  have hsorted : (sortChildren cs).Pairwise
      (fun p q : Char × TrieNode => p.1 ≤ q.1) := by
    rw [sortChildren]
    exact List.sorted_insertionSort _ cs
  have hnd2 : ((sortChildren cs).map Prod.fst).Nodup :=
    (((List.perm_insertionSort _ cs).map Prod.fst).nodup_iff).mpr hnd
  have hne : (sortChildren cs).Pairwise (fun p q : Char × TrieNode => p.1 ≠ q.1) :=
    List.pairwise_map.mp hnd2
  exact (hsorted.and hne).imp (fun h => lt_of_le_of_ne h.1 h.2)

theorem dfsItemsL_pairwise {cur : List Char} :
    ∀ {l : List (Char × TrieNode)},
      l.Pairwise (fun p q : Char × TrieNode => p.1 < q.1) →
      (∀ p ∈ l, (dfsItems p.2 (cur ++ [p.1])).Pairwise
        (fun a b : Item => a.2 < b.2)) →
      (∀ p ∈ l, ∀ x ∈ dfsItems p.2 (cur ++ [p.1]), ∃ s, x.2 = cur ++ p.1 :: s) →
      (dfsItemsL l cur).Pairwise (fun a b : Item => a.2 < b.2) := by
  intro l
  induction l with
  | nil =>
    intro _ _ _
    simp [dfsItemsL]
  | cons p rest ih =>
    intro hkeys hblock hshape
    obtain ⟨c, t⟩ := p
    rw [dfsItemsL]
    rw [List.pairwise_append]
    refine ⟨hblock (c, t) (by simp), ?_, ?_⟩
    · exact ih (List.Pairwise.of_cons hkeys)
        (fun q hq => hblock q (by simp [hq]))
        (fun q hq => hshape q (by simp [hq]))
    · intro x hx y hy
      obtain ⟨q, hq, hyq⟩ := mem_dfsItemsL.mp hy
      obtain ⟨s, hs⟩ := hshape (c, t) (by simp) x hx
      obtain ⟨s', hs'⟩ := hshape q (by simp [hq]) y hyq
      have hcq : c < q.1 := (List.pairwise_cons.mp hkeys).1 q hq
      rw [hs, hs']
      exact word_lt_of_key_lt hcq cur s s'

theorem dfsItems_pairwise : ∀ (n : TrieNode), nodeWF n → ∀ (cur : List Char),
    (dfsItems n cur).Pairwise (fun a b : Item => a.2 < b.2) := by
  intro n
  induction n using TrieNode.ind with
  | _ cs iw fq ih =>
    intro hwf cur
    obtain ⟨hnd, hwfl⟩ := (nodeWF_mk cs iw fq) ▸ hwf
    have hshape : ∀ p ∈ sortChildren cs, ∀ x ∈ dfsItems p.2 (cur ++ [p.1]),
        ∃ s, x.2 = cur ++ p.1 :: s := by
      intro p hp x hx
      have hmem := mem_sortChildren.mp hp
      have hwt : nodeWF p.2 := nodeWFL_iff.mp hwfl p hmem
      obtain ⟨s, m, hxs, _, _, _⟩ :=
        (mem_dfsItems p.2 hwt (cur ++ [p.1]) x).mp hx
      exact ⟨s, by simpa using hxs⟩
    have hblocks : (dfsItemsL (sortChildren cs) cur).Pairwise
        (fun a b : Item => a.2 < b.2) := by
      apply dfsItemsL_pairwise (sortChildren_keys_lt hnd)
      · intro p hp
        have hmem := mem_sortChildren.mp hp
        exact ih p.1 p.2 (by simpa using hmem) (nodeWFL_iff.mp hwfl p hmem) (cur ++ [p.1])
      · exact hshape
    rw [dfsItems]
    rw [List.pairwise_append]
    refine ⟨?_, hblocks, ?_⟩
    · cases iw <;> simp
    · intro x hx y hy
      cases iw with
      | false => simp at hx
      | true =>
        simp at hx
        obtain ⟨q, hq, hyq⟩ := mem_dfsItemsL.mp hy
        obtain ⟨s', hs'⟩ := hshape q hq y hyq
        rw [hx, hs']
        exact word_lt_append cur q.1 s'

/-! ## Liveness along paths, word counts, and height -/

theorem findNode_live : ∀ (v : List Char) (n m : TrieNode), noDead n →
    v ≠ [] → findNode n v = some m → live m := by
  intro v
  induction v with
  | nil => intro n m _ h; exact absurd rfl h
  | cons c rest ih =>
    intro n m hnd _ hfind
    obtain ⟨cs, iw, fq⟩ := n
    rw [findNode_cons] at hfind
    cases hlk : lookupA cs c with
    | none => rw [hlk] at hfind; simp at hfind
    | some child =>
      rw [hlk] at hfind
      obtain ⟨hlive, hndc⟩ := noDeadL_mem ((noDead_mk cs iw fq) ▸ hnd) hlk
      cases rest with
      | nil =>
        simp at hfind
        subst hfind
        exact hlive
      | cons c' rest' => exact ih child m hndc (by simp) hfind

theorem live_one_le_countWords : ∀ (n : TrieNode), noDead n → live n →
    1 ≤ countWords n := by
  intro n
  induction n using TrieNode.ind with
  | _ cs iw fq ih =>
    intro hnd hl
    cases iw with
    | true => simp
    | false =>
      rcases (live_mk cs false fq).mp hl with hcs | hiw
      · cases cs with
        | nil => exact absurd rfl hcs
        | cons p rest =>
          obtain ⟨c, t⟩ := p
          have h1 := (noDead_mk _ _ _) ▸ hnd
          rw [noDeadL] at h1
          have h2 := ih c t (by simp) h1.2.1 h1.1
          simp [countWordsL]
          omega
      · simp at hiw

theorem countWords_zero_children {n : TrieNode} (hnd : noDead n)
    (h : countWords n = 0) : n.children = [] := by
  obtain ⟨cs, iw, fq⟩ := n
  cases cs with
  | nil => rfl
  | cons p rest =>
    obtain ⟨c, t⟩ := p
    have h1 := (noDead_mk _ _ _) ▸ hnd
    rw [noDeadL] at h1
    have h2 := live_one_le_countWords t h1.2.1 h1.1
    simp [countWordsL] at h
    omega

theorem getHeight_nil (iw : Bool) (fq : ℚ) : getHeight (.mk [] iw fq) = 0 := by
  simp [getHeight]

theorem getHeight_cons (p : Char × TrieNode) (rest : List (Char × TrieNode))
    (iw : Bool) (fq : ℚ) :
    getHeight (.mk (p :: rest) iw fq) = 1 + maxHeightL (p :: rest) := by
  simp [getHeight]

theorem lookupA_height_le {cs : List (Char × TrieNode)} {c : Char} {u : TrieNode}
    (h : lookupA cs c = some u) : getHeight u ≤ maxHeightL cs := by
  induction cs with
  | nil => simp [lookupA] at h
  | cons p rest ih =>
    obtain ⟨c0, t⟩ := p
    by_cases hc : c = c0
    · subst hc
      simp [lookupA] at h
      subst h
      simp [maxHeightL]
    · simp [lookupA, hc] at h
      have := ih h
      simp [maxHeightL]
      omega

theorem maxHeightL_attained : ∀ (cs : List (Char × TrieNode)), cs ≠ [] →
    ∃ p ∈ cs, getHeight p.2 = maxHeightL cs := by
  intro cs
  induction cs with
  | nil => intro h; exact absurd rfl h
  | cons p rest ih =>
    intro _
    obtain ⟨c, t⟩ := p
    cases rest with
    | nil => exact ⟨(c, t), by simp, by simp [maxHeightL]⟩
    | cons q rest' =>
      obtain ⟨r, hr, hmax⟩ := ih (by simp)
      by_cases hcmp : getHeight r.2 ≤ getHeight t
      · refine ⟨(c, t), by simp, ?_⟩
        show getHeight t = _
        rw [maxHeightL, ← hmax]
        exact (max_eq_left hcmp).symm
      · refine ⟨r, by simp [hr], ?_⟩
        rw [maxHeightL, ← hmax]
        exact (max_eq_right (le_of_not_le hcmp)).symm

/-- The helper `_get_height` computes exactly the length of the longest existing
symbol path from the node. -/
theorem getHeight_spec : ∀ (n : TrieNode), nodeWF n →
    (∃ p, (findNode n p).isSome ∧ p.length = getHeight n) ∧
    (∀ (p : List Char) (m : TrieNode), findNode n p = some m →
      p.length ≤ getHeight n) := by
  intro n
  induction n using TrieNode.ind with
  | _ cs iw fq ih =>
    intro hwf
    obtain ⟨hnd, hwfl⟩ := (nodeWF_mk cs iw fq) ▸ hwf
    cases hcs : cs with
    | nil =>
      refine ⟨⟨[], by simp, by simp [getHeight_nil]⟩, ?_⟩
      intro p m hfind
      cases p with
      | nil => simp [getHeight_nil]
      | cons c rest =>
        rw [findNode_cons] at hfind
        simp [lookupA] at hfind
    | cons q rest =>
      subst hcs
      constructor
      · obtain ⟨r, hr, hmax⟩ := maxHeightL_attained (q :: rest) (by simp)
        obtain ⟨c, t⟩ := r
        have hwt : nodeWF t := nodeWFL_iff.mp hwfl (c, t) hr
        obtain ⟨⟨p', hp', hlen⟩, _⟩ := ih c t hr hwt
        refine ⟨c :: p', ?_, ?_⟩
        · rw [findNode_cons, lookupA_of_mem_nodup hnd hr]
          exact hp'
        · simp [getHeight_cons, hlen.symm]
          rw [← hmax]
          simp [hlen]
          omega
      · intro p m hfind
        cases p with
        | nil => simp
        | cons c restp =>
          rw [findNode_cons] at hfind
          cases hlk : lookupA (q :: rest) c with
          | none => rw [hlk] at hfind; simp at hfind
          | some child =>
            rw [hlk] at hfind
            have hmem := lookupA_mem hlk
            have hwt : nodeWF child := nodeWFL_iff.mp hwfl (c, child) hmem
            have h1 := (ih c child hmem hwt).2 restp m hfind
            have h2 := lookupA_height_le hlk
            simp [getHeight_cons]
            omega

/-! ## Semantics of `items` (insertion-order traversal) -/

theorem itemsGoL_acc :
    ∀ (l : List (Char × TrieNode)) (cur : List Char) (acc : List (List Char × ℚ)),
      (∀ p ∈ l, ∀ cur' acc', itemsGo p.2 cur' acc' = acc' ++ itemsGo p.2 cur' []) →
      itemsGoL l cur acc = acc ++ itemsGoL l cur [] := by
  intro l
  induction l with
  | nil => intro cur acc _; simp [itemsGoL]
  | cons p rest ih =>
    intro cur acc hp
    obtain ⟨c, t⟩ := p
    have hrest : ∀ q ∈ rest, ∀ cur' acc',
        itemsGo q.2 cur' acc' = acc' ++ itemsGo q.2 cur' [] :=
      fun q hq => hp q (by simp [hq])
    rw [itemsGoL, itemsGoL]
    rw [hp (c, t) (by simp) (cur ++ [c]) acc]
    rw [ih cur (acc ++ itemsGo (c, t).2 (cur ++ [c]) []) hrest]
    rw [ih cur (itemsGo (c, t).2 (cur ++ [c]) []) hrest]
    simp

theorem itemsGo_eq (cs : List (Char × TrieNode)) (iw : Bool) (fq : ℚ)
    (cur : List Char) (acc : List (List Char × ℚ)) :
    itemsGo (.mk cs iw fq) cur acc =
      itemsGoL cs cur (acc ++ (if iw then [(cur, fq)] else [])) := by
  rw [itemsGo]
  cases iw <;> simp

theorem itemsGo_acc : ∀ (n : TrieNode) (cur : List Char) (acc : List (List Char × ℚ)),
    itemsGo n cur acc = acc ++ itemsGo n cur [] := by
  intro n
  induction n using TrieNode.ind with
  | _ cs iw fq ih =>
    intro cur acc
    have hmem : ∀ p ∈ cs, ∀ cur' acc',
        itemsGo p.2 cur' acc' = acc' ++ itemsGo p.2 cur' [] :=
      fun p hp => ih p.1 p.2 (by simpa using hp)
    rw [itemsGo_eq, itemsGo_eq]
    rw [itemsGoL_acc cs cur _ hmem, itemsGoL_acc cs cur _ hmem]
    simp
    rw [itemsGoL_acc cs cur (if iw = true then [(cur, fq)] else []) hmem]

theorem mem_itemsGoL {l : List (Char × TrieNode)} {cur : List Char}
    {x : List Char × ℚ}
    (hacc : ∀ p ∈ l, ∀ cur' acc', itemsGo p.2 cur' acc' = acc' ++ itemsGo p.2 cur' []) :
    x ∈ itemsGoL l cur [] ↔ ∃ p ∈ l, x ∈ itemsGo p.2 (cur ++ [p.1]) [] := by
  induction l with
  | nil => simp [itemsGoL]
  | cons p rest ih =>
    obtain ⟨c, t⟩ := p
    rw [itemsGoL]
    rw [itemsGoL_acc rest cur _ (fun q hq => hacc q (by simp [hq]))]
    rw [List.mem_append]
    rw [ih (fun q hq => hacc q (by simp [hq]))]
    constructor
    · rintro (h | ⟨q, hq, hx⟩)
      · exact ⟨(c, t), by simp, h⟩
      · exact ⟨q, by simp [hq], hx⟩
    · rintro ⟨q, hq, hx⟩
      rcases List.mem_cons.mp hq with h1 | h1
      · subst h1; exact Or.inl hx
      · exact Or.inr ⟨q, h1, hx⟩

theorem mem_itemsGo : ∀ (n : TrieNode), nodeWF n → ∀ (cur : List Char)
    (x : List Char × ℚ),
    x ∈ itemsGo n cur [] ↔
      ∃ suffix m, x.1 = cur ++ suffix ∧ findNode n suffix = some m ∧
        m.is_word = true ∧ x.2 = m.freq := by
  intro n
  induction n using TrieNode.ind with
  | _ cs iw fq ih =>
    intro hwf cur x
    obtain ⟨hnd, hwfl⟩ := (nodeWF_mk cs iw fq) ▸ hwf
    rw [itemsGo_eq]
    simp only [List.nil_append]
    rw [itemsGoL_acc cs cur _ (fun p hp => itemsGo_acc p.2)]
    rw [List.mem_append]
    rw [mem_itemsGoL (fun p hp => itemsGo_acc p.2)]
    constructor
    · rintro (hhead | ⟨⟨c, t⟩, hp, hx⟩)
      · cases iw with
        | false => simp at hhead
        | true =>
          simp at hhead
          refine ⟨[], .mk cs true fq, by simp [hhead], by simp, by simp, by simp [hhead]⟩
      · have hwt : nodeWF t := nodeWFL_iff.mp hwfl (c, t) hp
        obtain ⟨s, m, hxs, hfind, hw, hfq⟩ := (ih c t hp hwt (cur ++ [c]) x).mp hx
        refine ⟨c :: s, m, by simp [hxs], ?_, hw, hfq⟩
        rw [findNode_cons, lookupA_of_mem_nodup hnd hp]
        exact hfind
    · rintro ⟨suffix, m, hxs, hfind, hw, hfq⟩
      cases suffix with
      | nil =>
        simp at hfind
        subst hfind
        simp at hw
        subst hw
        left
        obtain ⟨xv, xq⟩ := x
        simp at hxs hfq
        simp [hxs, hfq]
      | cons c s =>
        rw [findNode_cons] at hfind
        cases hlk : lookupA cs c with
        | none => rw [hlk] at hfind; simp at hfind
        | some child =>
          rw [hlk] at hfind
          right
          have hmem : (c, child) ∈ cs := lookupA_mem hlk
          have hwt : nodeWF child := nodeWFL_iff.mp hwfl (c, child) hmem
          exact ⟨(c, child), hmem,
            (ih c child hmem hwt (cur ++ [c]) x).mpr
              ⟨s, m, by simp [hxs], hfind, hw, hfq⟩⟩

theorem word_ne_of_key_ne {c c' : Char} (h : c ≠ c') (cur s s' : List Char) :
    cur ++ c :: s ≠ cur ++ c' :: s' := by
  intro he
  have h2 : c :: s = c' :: s' := List.append_cancel_left he
  injection h2 with h3 _
  exact h h3

theorem keys_pairwise_ne {cs : List (Char × TrieNode)}
    (hnd : (cs.map Prod.fst).Nodup) :
    cs.Pairwise (fun p q : Char × TrieNode => p.1 ≠ q.1) :=
  List.pairwise_map.mp hnd

theorem itemsGoL_pairwise_ne {cur : List Char} :
    ∀ {l : List (Char × TrieNode)},
      l.Pairwise (fun p q : Char × TrieNode => p.1 ≠ q.1) →
      (∀ p ∈ l, (itemsGo p.2 (cur ++ [p.1]) []).Pairwise
        (fun a b : List Char × ℚ => a.1 ≠ b.1)) →
      (∀ p ∈ l, ∀ x ∈ itemsGo p.2 (cur ++ [p.1]) [], ∃ s, x.1 = cur ++ p.1 :: s) →
      (itemsGoL l cur []).Pairwise (fun a b : List Char × ℚ => a.1 ≠ b.1) := by
  intro l
  induction l with
  | nil =>
    intro _ _ _
    simp [itemsGoL]
  | cons p rest ih =>
    intro hkeys hblock hshape
    obtain ⟨c, t⟩ := p
    rw [itemsGoL]
    rw [itemsGoL_acc rest cur _ (fun q hq => itemsGo_acc q.2)]
    rw [List.pairwise_append]
    refine ⟨hblock (c, t) (by simp), ?_, ?_⟩
    · exact ih (List.Pairwise.of_cons hkeys)
        (fun q hq => hblock q (by simp [hq]))
        (fun q hq => hshape q (by simp [hq]))
    · intro x hx y hy
      obtain ⟨q, hq, hyq⟩ := (mem_itemsGoL (fun r hr => itemsGo_acc r.2)).mp hy
      obtain ⟨s, hs⟩ := hshape (c, t) (by simp) x hx
      obtain ⟨s', hs'⟩ := hshape q (by simp [hq]) y hyq
      have hcq : c ≠ q.1 := (List.pairwise_cons.mp hkeys).1 q hq
      rw [hs, hs']
      exact word_ne_of_key_ne hcq cur s s'

theorem itemsGo_pairwise_ne : ∀ (n : TrieNode), nodeWF n → ∀ (cur : List Char),
    (itemsGo n cur []).Pairwise (fun a b : List Char × ℚ => a.1 ≠ b.1) := by
  intro n
  induction n using TrieNode.ind with
  | _ cs iw fq ih =>
    intro hwf cur
    obtain ⟨hnd, hwfl⟩ := (nodeWF_mk cs iw fq) ▸ hwf
    have hshape : ∀ p ∈ cs, ∀ x ∈ itemsGo p.2 (cur ++ [p.1]) [],
        ∃ s, x.1 = cur ++ p.1 :: s := by
      intro p hp x hx
      have hwt : nodeWF p.2 := nodeWFL_iff.mp hwfl p hp
      obtain ⟨s, m, hxs, _, _, _⟩ := (mem_itemsGo p.2 hwt (cur ++ [p.1]) x).mp hx
      exact ⟨s, by simpa using hxs⟩
    have hblocks : (itemsGoL cs cur []).Pairwise
        (fun a b : List Char × ℚ => a.1 ≠ b.1) := by
      apply itemsGoL_pairwise_ne (keys_pairwise_ne hnd)
      · intro p hp
        exact ih p.1 p.2 (by simpa using hp) (nodeWFL_iff.mp hwfl p hp) (cur ++ [p.1])
      · exact hshape
    rw [itemsGo_eq]
    simp only [List.nil_append]
    rw [itemsGoL_acc cs cur _ (fun p hp => itemsGo_acc p.2)]
    rw [List.pairwise_append]
    refine ⟨?_, hblocks, ?_⟩
    · cases iw <;> simp
    · intro x hx y hy
      cases iw with
      | false => simp at hx
      | true =>
        simp at hx
        obtain ⟨q, hq, hyq⟩ := (mem_itemsGoL (fun r hr => itemsGo_acc r.2)).mp hy
        obtain ⟨s', hs'⟩ := hshape q hq y hyq
        rw [hx, hs']
        exact ne_of_lt (word_lt_append cur q.1 s')

theorem itemsGoL_length (cur : List Char) :
    ∀ (l : List (Char × TrieNode)),
      (∀ p ∈ l, ∀ cur', (itemsGo p.2 cur' []).length = countWords p.2) →
      (itemsGoL l cur []).length = countWordsL l := by
  intro l
  induction l with
  | nil => intro _; simp [itemsGoL, countWordsL]
  | cons p rest ih =>
    intro hp
    obtain ⟨c, t⟩ := p
    rw [itemsGoL]
    rw [itemsGoL_acc rest cur _ (fun q hq => itemsGo_acc q.2)]
    simp only [List.length_append]
    rw [hp (c, t) (by simp) (cur ++ [c]), ih (fun q hq => hp q (by simp [hq])),
      countWordsL]

theorem itemsGo_length : ∀ (n : TrieNode) (cur : List Char),
    (itemsGo n cur []).length = countWords n := by
  intro n
  induction n using TrieNode.ind with
  | _ cs iw fq ih =>
    intro cur
    rw [itemsGo_eq]
    simp only [List.nil_append]
    rw [itemsGoL_acc cs cur _ (fun p hp => itemsGo_acc p.2)]
    simp only [List.length_append]
    have h1 : (itemsGoL cs cur []).length = countWordsL cs := by
      apply itemsGoL_length
      intro p hp cur'
      exact ih p.1 p.2 (by simpa using hp) cur'
    rw [h1]
    cases iw <;> simp [countWords]

/-! ## Claim-level vocabulary -/

/-- Whether `v` starts with `p`. -/
def startsWith (p v : List Char) : Bool := decide (v.take p.length = p)

theorem startsWith_iff {p v : List Char} :
    startsWith p v = true ↔ ∃ s, v = p ++ s := by
  unfold startsWith
  rw [decide_eq_true_iff]
  constructor
  · intro h
    refine ⟨v.drop p.length, ?_⟩
    conv_lhs => rw [← List.take_append_drop p.length v]
    rw [h]
  · rintro ⟨s, rfl⟩
    simp

/-- The stored score of `v` (`0` when `v`'s node does not exist). -/
def score (t : Trie) (v : List Char) : ℚ :=
  ((findNode t.root v).map TrieNode.freq).getD 0

/-- The number of terminal nodes below the prefix node: the number of
words in the index that start with the prefix. -/
def wordsUnder (t : Trie) (pre : List Char) : Nat :=
  match findNode t.root pre with
  | none => 0
  | some n => countWords n

/-- The `(word, score)` sequence in the ascending-symbol depth-first
order that `complete` uses to visit terminal nodes — what the spec says
`items()` returns. -/
def itemsAsc (t : Trie) : List (List Char × ℚ) :=
  (dfsItems t.root []).map (fun x => (x.2, x.1))

theorem findNode_nodeWF : ∀ (p : List Char) (root n : TrieNode),
    nodeWF root → findNode root p = some n → nodeWF n := by
  intro p
  induction p with
  | nil =>
    intro root n hwf h
    simp at h
    subst h
    exact hwf
  | cons c rest ih =>
    intro root n hwf h
    obtain ⟨cs, iw, fq⟩ := root
    rw [findNode_cons] at h
    cases hlk : lookupA cs c with
    | none => rw [hlk] at h; simp at h
    | some child =>
      rw [hlk] at h
      obtain ⟨hnd, hwfl⟩ := (nodeWF_mk cs iw fq) ▸ hwf
      exact ih child n (nodeWFL_mem hwfl hlk) h

theorem complete_char {t : Trie} {pre : List Char} {n : TrieNode} (k : Int)
    (hf : findNode t.root pre = some n) :
    t.complete pre k =
      (((sortI (dfsItems n pre)).drop
        ((dfsItems n pre).length - k.toNat)).insertionSort olex).map Prod.snd := by
  simp only [Trie.complete, hf]
  rw [collect_eq_foldl k n pre []]
  rw [foldl_heapStep_nil]

theorem complete_of_findNode_none {t : Trie} {pre : List Char} (k : Int)
    (hf : findNode t.root pre = none) : t.complete pre k = [] := by
  simp only [Trie.complete, hf]

theorem contains_eq_of_findNode {t : Trie} {v : List Char} {m : TrieNode}
    (h : findNode t.root v = some m) : t.contains v = m.is_word := by
  simp only [Trie.contains, h]

theorem score_eq_of_findNode {t : Trie} {v : List Char} {m : TrieNode}
    (h : findNode t.root v = some m) : score t v = m.freq := by
  simp [score, h]

/-- Semantic reading of the ascending DFS items below the prefix node. -/
theorem dfs_item_sem {t : Trie} {pre : List Char} {n : TrieNode}
    (hwfn : nodeWF n) (hfind : findNode t.root pre = some n) :
    ∀ x ∈ dfsItems n pre, startsWith pre x.2 = true ∧
      t.contains x.2 = true ∧ score t x.2 = x.1 := by
  intro x hx
  obtain ⟨s, m, hxs, hfm, hwm, hfq⟩ := (mem_dfsItems n hwfn pre x).mp hx
  have hroot : findNode t.root x.2 = some m := by
    rw [hxs, findNode_append, hfind]
    exact hfm
  refine ⟨startsWith_iff.mpr ⟨s, hxs⟩, ?_, ?_⟩
  · rw [contains_eq_of_findNode hroot]
    exact hwm
  · rw [score_eq_of_findNode hroot, hfq]

/-! ## Concrete example states -/

/-- The index with `{"aa": 1.0, "ab": 1.0, "ac": 1.0}` inserted into a fresh state. -/
def trieAAA : Trie :=
  ((Trie.init.insert ['a', 'a'] 1).insert ['a', 'b'] 1).insert ['a', 'c'] 1

theorem trieAAA_reachable : Reachable trieAAA :=
  Reach.insert ['a', 'c'] 1 trivial
    (Reach.insert ['a', 'b'] 1 trivial
      (Reach.insert ['a', 'a'] 1 trivial Reach.init))

/-- The index after `insert("b", 2)` then `insert("a", 1)` on a fresh state. -/
def trieBA : Trie := (Trie.init.insert ['b'] 2).insert ['a'] 1

theorem trieBA_reachable : Reachable trieBA :=
  Reach.insert ['a'] 1 trivial (Reach.insert ['b'] 2 trivial Reach.init)

/-- C1 (amended): for every reachable index state, `complete(prefix, k)`
returns exactly `min(k, n)` words starting with the prefix (`n` the number
of words under the prefix), sorted by descending score with exact-score
ties broken by ascending word; the selected words are the `min(k, n)`
greatest under the heap tuple order `(score, word)` — so on exact-score
ties at the cut-off, the lexicographically larger words are the ones kept,
not the smaller ones as the original claim stated; the concrete example
(`{"aa","ab","ac"}`, `k = 3`) from the claim still holds. -/
theorem C1_complete_topk (t : Trie) (ht : Reachable t) (pre : List Char) (k : Int) :
    (t.complete pre k).length = min k.toNat (wordsUnder t pre) ∧
    (∀ v ∈ t.complete pre k, startsWith pre v = true ∧ t.contains v = true) ∧
    (t.complete pre k).Pairwise
      (fun a b => score t b < score t a ∨ (score t a = score t b ∧ a < b)) ∧
    (∀ v ∈ t.complete pre k, ∀ u, startsWith pre u = true → t.contains u = true →
      u ∉ t.complete pre k → ile (score t u, u) (score t v, v)) ∧
    trieAAA.complete ['a'] 3 = [['a', 'a'], ['a', 'b'], ['a', 'c']] := by
  have hwf := reach_wf ht
  have hexample : trieAAA.complete ['a'] 3 = [['a', 'a'], ['a', 'b'], ['a', 'c']] := by
    simp [trieAAA, Trie.init, TrieNode.init, Trie.insert, insertGo, lookupA, updateA,
      Trie.complete, findNode, TrieNode.children, collect, collectL, sortChildren,
      List.insertionSort, List.orderedInsert, heapStep, heapPush, heapPushPop,
      ile, olex, TrieNode.is_word, TrieNode.freq]
    have h1 : (['a', 'a'] : List Char) ≤ ['a', 'b'] := by decide
    have h2 : (['a', 'b'] : List Char) ≤ ['a', 'c'] := by decide
    have h3 : (['a', 'a'] : List Char) ≤ ['a', 'c'] := by decide
    simp [h1, h2, h3]
  cases hfind : findNode t.root pre with
  | none =>
    rw [complete_of_findNode_none k hfind]
    exact ⟨by simp [wordsUnder, hfind], by simp, by simp, by simp, hexample⟩
  | some n =>
    have hwfn : nodeWF n := findNode_nodeWF pre t.root n hwf hfind
    have hchar := complete_char k hfind
    have hsem := dfs_item_sem hwfn hfind
    have hLout : ∀ x ∈ (((sortI (dfsItems n pre)).drop
        ((dfsItems n pre).length - k.toNat)).insertionSort olex),
        x ∈ dfsItems n pre := by
      intro x hx
      have h1 : x ∈ (sortI (dfsItems n pre)).drop ((dfsItems n pre).length - k.toNat) :=
        (List.perm_insertionSort olex _).subset hx
      exact (sortI_perm _).subset ((List.drop_sublist _ _).subset h1)
    refine ⟨?_, ?_, ?_, ?_, hexample⟩
    · rw [hchar]
      simp only [List.length_map, List.length_insertionSort, List.length_drop]
      have h1 : (sortI (dfsItems n pre)).length = (dfsItems n pre).length := by
        simp [sortI, List.length_insertionSort]
      rw [h1, dfsItems_length n pre]
      simp only [wordsUnder, hfind]
      omega
    · intro v hv
      rw [hchar] at hv
      obtain ⟨x, hx, rfl⟩ := List.mem_map.mp hv
      obtain ⟨h1, h2, _⟩ := hsem x (hLout x hx)
      exact ⟨h1, h2⟩
    · rw [hchar]
      rw [List.pairwise_map]
      have hP : (((sortI (dfsItems n pre)).drop
          ((dfsItems n pre).length - k.toNat)).insertionSort olex).Pairwise olex :=
        List.sorted_insertionSort olex _
      have hD_pair := dfsItems_pairwise n hwfn pre
      have hD_nodup : ((dfsItems n pre).map Prod.snd).Nodup :=
        List.pairwise_map.mpr (hD_pair.imp (fun h => ne_of_lt h))
      have hS_nodup : ((sortI (dfsItems n pre)).map Prod.snd).Nodup :=
        (((sortI_perm (dfsItems n pre)).map Prod.snd).nodup_iff).mpr hD_nodup
      have hHC_nodup : (((sortI (dfsItems n pre)).drop
          ((dfsItems n pre).length - k.toNat)).map Prod.snd).Nodup := by
        rw [List.map_drop]
        exact List.Nodup.sublist (List.drop_sublist _ _) hS_nodup
      have hOUT_nodup : ((((sortI (dfsItems n pre)).drop
          ((dfsItems n pre).length - k.toNat)).insertionSort olex).map Prod.snd).Nodup :=
        (((List.perm_insertionSort olex _).map Prod.snd).nodup_iff).mpr hHC_nodup
      have hOUT_ne := List.pairwise_map.mp hOUT_nodup
      refine ((hP.and hOUT_ne).imp_of_mem ?_)
      intro a b ha hb hab
      obtain ⟨_, _, hsa⟩ := hsem a (hLout a ha)
      obtain ⟨_, _, hsb⟩ := hsem b (hLout b hb)
      rw [hsa, hsb]
      rcases hab.1 with h | ⟨h1, h2⟩
      · left; exact h
      · right; exact ⟨h1, lt_of_le_of_ne h2 hab.2⟩
    · intro v hv u hu1 hu2 hu3
      rw [hchar] at hv hu3
      obtain ⟨xv, hxv, rfl⟩ := List.mem_map.mp hv
      have hxv_hc : xv ∈ (sortI (dfsItems n pre)).drop
          ((dfsItems n pre).length - k.toNat) :=
        (List.perm_insertionSort olex _).subset hxv
      obtain ⟨_, _, hsv⟩ := hsem xv (hLout xv hxv)
      obtain ⟨s, rfl⟩ := startsWith_iff.mp hu1
      cases hfu : findNode t.root (pre ++ s) with
      | none => simp [Trie.contains, hfu] at hu2
      | some m =>
        have hwm : m.is_word = true := by
          rw [contains_eq_of_findNode hfu] at hu2
          exact hu2
        have hfm : findNode n s = some m := by
          rw [findNode_append, hfind] at hfu
          exact hfu
        have hxuD : (m.freq, pre ++ s) ∈ dfsItems n pre :=
          (mem_dfsItems n hwfn pre (m.freq, pre ++ s)).mpr ⟨s, m, rfl, hfm, hwm, rfl⟩
        have hxuS : (m.freq, pre ++ s) ∈ sortI (dfsItems n pre) :=
          ((sortI_perm _).mem_iff).mpr hxuD
        have hxu_not_hc : (m.freq, pre ++ s) ∉ (sortI (dfsItems n pre)).drop
            ((dfsItems n pre).length - k.toNat) := by
          intro hmem
          apply hu3
          apply List.mem_map.mpr
          exact ⟨(m.freq, pre ++ s),
            ((List.perm_insertionSort olex _).mem_iff).mpr hmem, rfl⟩
        have hxu_take : (m.freq, pre ++ s) ∈ (sortI (dfsItems n pre)).take
            ((dfsItems n pre).length - k.toNat) := by
          have heq := List.take_append_drop ((dfsItems n pre).length - k.toNat)
            (sortI (dfsItems n pre))
          rw [← heq] at hxuS
          rcases List.mem_append.mp hxuS with h | h
          · exact h
          · exact absurd h hxu_not_hc
        have hrel : ile (m.freq, pre ++ s) xv :=
          (sortI_sorted (dfsItems n pre)).rel_of_mem_take_of_mem_drop hxu_take hxv_hc
        have hsu : score t (pre ++ s) = m.freq := score_eq_of_findNode hfu
        rw [hsu, hsv]
        simpa using hrel

theorem countWordsL_le_countNodesL :
    ∀ (l : List (Char × TrieNode)),
      (∀ p ∈ l, countWords p.2 ≤ countNodes p.2) →
      countWordsL l ≤ countNodesL l := by
  intro l
  induction l with
  | nil => intro _; simp [countWordsL, countNodesL]
  | cons p rest ih =>
    intro hp
    obtain ⟨c, t⟩ := p
    have h1 := hp (c, t) (by simp)
    have h2 := ih (fun q hq => hp q (by simp [hq]))
    simp [countWordsL, countNodesL] at *
    omega

theorem countWords_le_countNodes : ∀ (n : TrieNode), countWords n ≤ countNodes n := by
  intro n
  induction n using TrieNode.ind with
  | _ cs iw fq ih =>
    have h := countWordsL_le_countNodesL cs (fun p hp => ih p.1 p.2 (by simpa using hp))
    cases iw <;> simp [countWords, countNodes] <;> omega

theorem contains_eq_containsN (t : Trie) (v : List Char) :
    t.contains v = containsN t.root v := rfl

theorem complete_toNat_zero {t : Trie} {pre : List Char} {n : TrieNode}
    (hfind : findNode t.root pre = some n) (k : Int) (hk : k.toNat = 0) :
    t.complete pre k = [] := by
  rw [complete_char k hfind, hk, Nat.sub_zero]
  have hlen : (dfsItems n pre).length = (sortI (dfsItems n pre)).length := by
    simp [sortI]
  rw [hlen, List.drop_length]
  simp

/-- C10: a negative `k` lies outside the stated precondition of the spec, but the code
returns the empty list without error: the `len(heap) < k` guard is never
true, and each push-pop on the empty bounded selection leaves it empty. -/
theorem C10_complete_neg_k (t : Trie) (pre : List Char) (k : Int) (hk : k < 0) :
    t.complete pre k = [] := by
  cases hfind : findNode t.root pre with
  | none => exact complete_of_findNode_none k hfind
  | some n => exact complete_toNat_zero hfind k (by omega)

/-- C10 witness: `complete("x", -5)` on the empty index is `[]`. -/
theorem C10_witness : Trie.init.complete ['x'] (-5) = [] :=
  C10_complete_neg_k Trie.init ['x'] (-5) (by decide)

/-- C8: `complete` returns the empty sequence (and no error) when the
prefix node does not exist, or no word starts with the prefix, or
`k = 0`; being a pure function of the state it mutates nothing. -/
theorem C8_complete_empty (t : Trie) (ht : Reachable t) (pre : List Char) (k : Int)
    (h : findNode t.root pre = none ∨
      (∀ v, startsWith pre v = true → t.contains v = false) ∨ k = 0) :
    t.complete pre k = [] := by
  rcases h with h | h | h
  · exact complete_of_findNode_none k h
  · cases hfind : findNode t.root pre with
    | none => exact complete_of_findNode_none k hfind
    | some n =>
      have hwf := reach_wf ht
      have hwfn := findNode_nodeWF pre t.root n hwf hfind
      have hdfs : dfsItems n pre = [] := by
        apply List.eq_nil_iff_forall_not_mem.mpr
        intro x hx
        obtain ⟨h1, h2, _⟩ := dfs_item_sem hwfn hfind x hx
        rw [h x.2 h1] at h2
        exact absurd h2 (by simp)
      rw [complete_char k hfind, hdfs]
      simp [sortI]
  · subst h
    cases hfind : findNode t.root pre with
    | none => exact complete_of_findNode_none 0 hfind
    | some n => exact complete_toNat_zero hfind 0 rfl

/-- C8 witness: `complete("xyz", 5)` on the empty index is `[]`. -/
theorem C8_witness : Trie.init.complete ['x', 'y', 'z'] 5 = [] :=
  C8_complete_empty Trie.init Reach.init ['x', 'y', 'z'] 5 (Or.inl rfl)

/-- C5: when no node matches the exact path of the word, or the matched node
is not terminal, `remove` returns false and the trie object is returned
unchanged — same root, same counters, no structural change. -/
theorem C5_remove_false (t : Trie) (w : List Char)
    (h : findNode t.root w = none ∨
      ∃ m, findNode t.root w = some m ∧ m.is_word = false) :
    t.remove w = (t, false) := by
  have h0 : removeGo none t.root w = none := (removeGo_eq_none_iff none t.root w).mpr h
  simp [Trie.remove, h0]

/-- C5 witness: removing the absent word "m" from the empty index. -/
theorem C5_witness : Trie.init.remove ['m'] = (Trie.init, false) :=
  C5_remove_false Trie.init ['m'] (Or.inl rfl)

/-- C6: re-inserting a word that is already present overwrites its stored
score with the supplied value and changes neither the reported word count
nor the node count, and the word stays present. -/
theorem C6_reinsert (t : Trie) (w : List Char) (fq : ℚ)
    (h : t.contains w = true) :
    (t.insert w fq).wordsC = t.wordsC ∧
    (t.insert w fq).nodesC = t.nodesC ∧
    score (t.insert w fq) w = fq ∧
    (t.insert w fq).contains w = true := by
  have h0 : containsN t.root w = true := (contains_eq_containsN t w) ▸ h
  obtain ⟨hdn, hdw⟩ := insertGo_nochange fq w t.root h0
  obtain ⟨hcont, hfindw, _, _, _, _, _⟩ := insertGo_spec fq w t.root
  have hroot : (t.insert w fq).root = (insertGo fq t.root w).1 := rfl
  refine ⟨by simp [Trie.insert, hdw], by simp [Trie.insert, hdn], ?_, ?_⟩
  · obtain ⟨m, hm1, _, hm3⟩ := hfindw
    rw [score, hroot, hm1]
    simp [hm3]
  · rw [contains_eq_containsN, hroot, hcont w]
    simp

/-- C6 witness: re-inserting "ab" with a new score into the three-word
index. -/
theorem C6_witness :
    (trieAAA.insert ['a', 'b'] 5).wordsC = trieAAA.wordsC ∧
    (trieAAA.insert ['a', 'b'] 5).nodesC = trieAAA.nodesC ∧
    score (trieAAA.insert ['a', 'b'] 5) ['a', 'b'] = 5 ∧
    (trieAAA.insert ['a', 'b'] 5).contains ['a', 'b'] = true :=
  C6_reinsert trieAAA ['a', 'b'] 5 rfl

/-- The failing state of the pruning slip: the single word "ab". -/
def trieAB : Trie := Trie.init.insert ['a', 'b'] 1

/-- A failing state with a sibling: "ab" then "aa". -/
def trieABAA : Trie := (Trie.init.insert ['a', 'b'] 1).insert ['a', 'a'] 2

/-- C3 (code bug): the pruning loop deletes `parent.children[char]` where
`char` is the symbol leading INTO the parent (`path_nodes[i-1]`), not the
edge to the dead child.  On `{"ab"}`, `remove("ab")` therefore prunes
nothing: it returns true, the word counter drops to 0, but the node
counter stays 3 and the childless non-terminal node at "ab" survives —
the counter does not drop by the number of now-dead ancestors, and a
dead node is left behind.  On `{"ab": 1, "aa": 2}`, the same step finds
the key 'a' in the children of the "a"-node and deletes the LIVE "aa"
node instead: a node with the terminal flag set is removed. -/
theorem C3_remove_prunes_wrong :
    ((trieAB.remove ['a', 'b']).2 = true ∧
      (trieAB.remove ['a', 'b']).1.wordsC = 0 ∧
      (trieAB.remove ['a', 'b']).1.nodesC = 3 ∧
      countNodes (trieAB.remove ['a', 'b']).1.root = 3 ∧
      findNode (trieAB.remove ['a', 'b']).1.root ['a', 'b'] =
        some (.mk [] false 0)) ∧
    (trieABAA.contains ['a', 'a'] = true ∧
      (trieABAA.remove ['a', 'b']).2 = true ∧
      (trieABAA.remove ['a', 'b']).1.contains ['a', 'a'] = false) :=
  ⟨⟨rfl, rfl, rfl, rfl, rfl⟩, rfl, rfl, rfl⟩

/-- C4 (code bug): after the public operations `insert("ab", 1)` then
`remove("ab")` — the latter completing successfully — the node at the
path "ab" still exists, is childless and is non-terminal: the claimed
no-dead-branch invariant is violated by the wrong-key deletion in the
pruning loop (its membership guard usually fails, so nothing is
deleted). -/
theorem C4_dead_node_remains :
    (trieAB.remove ['a', 'b']).2 = true ∧
    findNode (trieAB.remove ['a', 'b']).1.root ['a', 'b'] =
      some (.mk [] false 0) :=
  ⟨rfl, rfl⟩

/-- C7 (code bug): on `{"ab": 1, "aa": 2}`, `remove("ab")` succeeds and,
through the wrong-key deletion in the pruning loop, removes the live
"aa" node — so `contains("aa")` becomes false although no `remove("aa")`
ever returned true, contradicting the claimed persistence of membership.
(The word "ab" is not the word "aa".) -/
theorem C7_contains_lost :
    trieABAA.contains ['a', 'a'] = true ∧
    (['a', 'b'] : List Char) ≠ ['a', 'a'] ∧
    (trieABAA.remove ['a', 'b']).2 = true ∧
    (trieABAA.remove ['a', 'b']).1.contains ['a', 'a'] = false :=
  ⟨rfl, by decide, rfl, rfl⟩

/-- C9 (code bug): the state after `insert("ab", 1)` (a non-empty word)
followed by a successful `remove("ab")` is an empty index — the reported
word count is 0 and no word is contained — yet `stats()` reports height
2 (and node count 3), because the pruning loop deleted nothing; this
contradicts the claimed "height 0 when the index is empty". -/
theorem C9_stats_height_nonzero_when_empty :
    (trieAB.remove ['a', 'b']).2 = true ∧
    (trieAB.remove ['a', 'b']).1.contains ['a', 'b'] = false ∧
    (trieAB.remove ['a', 'b']).1.stats = (0, 2, 3) ∧
    (trieAB.remove ['a', 'b']).1.stats.2.1 ≠ 0 :=
  ⟨rfl, rfl, rfl, by decide⟩

/-- C2 (amended): `items()` yields every terminal word exactly once,
paired with its current score — its length is the number of terminal
nodes — but in the depth-first order following the insertion order of
the children dictionaries, which need not be the ascending-symbol order
`complete` uses. -/
theorem C2_items (t : Trie) (ht : Reachable t) :
    (∀ v q, (v, q) ∈ t.items ↔ (t.contains v = true ∧ score t v = q)) ∧
    (t.items.map Prod.fst).Nodup ∧
    t.items.length = countWords t.root := by
  have hwf : nodeWF t.root := reach_wf ht
  have hitems : t.items = itemsGo t.root [] [] := rfl
  refine ⟨?_, ?_, ?_⟩
  · intro v q
    rw [hitems, mem_itemsGo t.root hwf [] (v, q)]
    constructor
    · rintro ⟨s, m, hs, hf, hw, hq⟩
      simp at hs hq
      subst hs
      refine ⟨?_, ?_⟩
      · rw [contains_eq_of_findNode hf]
        exact hw
      · rw [score_eq_of_findNode hf, hq]
    · rintro ⟨hc, hsc⟩
      cases hf : findNode t.root v with
      | none => rw [Trie.contains, hf] at hc; simp at hc
      | some m =>
        have hw : m.is_word = true := by
          rw [contains_eq_of_findNode hf] at hc
          exact hc
        have hq : q = m.freq := by
          rw [score_eq_of_findNode hf] at hsc
          exact hsc.symm
        exact ⟨v, m, by simp, hf, hw, by simp [hq]⟩
  · rw [hitems]
    exact List.pairwise_map.mpr (itemsGo_pairwise_ne t.root hwf [])
  · rw [hitems, itemsGo_length t.root []]

/-- C2 witness: the two-word index `{"b": 2, "a": 1}`. -/
theorem C2_witness :
    (∀ v q, (v, q) ∈ trieBA.items ↔
      (trieBA.contains v = true ∧ score trieBA v = q)) ∧
    (trieBA.items.map Prod.fst).Nodup ∧
    trieBA.items.length = countWords trieBA.root :=
  C2_items trieBA trieBA_reachable

/-- C2 counterexample: after `insert("b", 2); insert("a", 1)`, `items()`
returns the two words in dictionary insertion order `[b, a]`, not in the
ascending-symbol depth-first order `[a, b]` that `complete` uses — so
`items()` does not use `complete`'s traversal order. -/
theorem C2_counterexample :
    trieBA.items = [(['b'], 2), (['a'], 1)] ∧
    itemsAsc trieBA = [(['a'], 1), (['b'], 2)] ∧
    trieBA.items ≠ itemsAsc trieBA := by
  have h1 : trieBA.items = [(['b'], 2), (['a'], 1)] := by
    simp [Trie.items, trieBA, Trie.init, TrieNode.init, Trie.insert, insertGo,
      lookupA, updateA, itemsGo, itemsGoL, TrieNode.children, TrieNode.is_word,
      TrieNode.freq]
  have h2 : itemsAsc trieBA = [(['a'], 1), (['b'], 2)] := by
    have hba : ¬ (('b' : Char) ≤ 'a') := by decide
    simp [itemsAsc, trieBA, Trie.init, TrieNode.init, Trie.insert, insertGo,
      lookupA, updateA, dfsItems, dfsItemsL, sortChildren, List.insertionSort,
      List.orderedInsert, TrieNode.children, TrieNode.is_word, TrieNode.freq, hba]
  refine ⟨h1, h2, ?_⟩
  rw [h1, h2]
  decide

/-- C1 counterexample: with `{"aa": 1.0, "ab": 1.0, "ac": 1.0}` and
`k = 2`, the word "aa" starts with the prefix, is present, has the same
score as the returned word "ac" and is lexicographically smaller — so
under the claimed key (score descending, word ascending) "aa" is
better-ranked than "ac" — yet `complete("a", 2)` returns `["ab", "ac"]`,
omitting "aa": the selection does not keep the best-ranked words under
that key. -/
theorem C1_counterexample :
    trieAAA.complete ['a'] 2 = [['a', 'b'], ['a', 'c']] ∧
    startsWith ['a'] ['a', 'a'] = true ∧
    trieAAA.contains ['a', 'a'] = true ∧
    score trieAAA ['a', 'a'] = score trieAAA ['a', 'c'] ∧
    (['a', 'a'] : List Char) < ['a', 'c'] ∧
    ['a', 'a'] ∉ trieAAA.complete ['a'] 2 ∧
    ['a', 'c'] ∈ trieAAA.complete ['a'] 2 := by
  have h1 : trieAAA.complete ['a'] 2 = [['a', 'b'], ['a', 'c']] := by
    simp [trieAAA, Trie.init, TrieNode.init, Trie.insert, insertGo, lookupA, updateA,
      Trie.complete, findNode, TrieNode.children, collect, collectL, sortChildren,
      List.insertionSort, List.orderedInsert, heapStep, heapPush, heapPushPop,
      ile, olex, TrieNode.is_word, TrieNode.freq]
    have ha : (['a', 'b'] : List Char) ≤ ['a', 'c'] := by decide
    have hb : (['a', 'a'] : List Char) ≤ ['a', 'b'] := by decide
    have hc : (['a', 'a'] : List Char) ≤ ['a', 'c'] := by decide
    simp [ha, hb, hc]
  refine ⟨h1, by decide, rfl, rfl, by decide, ?_, ?_⟩
  · rw [h1]
    decide
  · rw [h1]
    decide

/-- C1 witness: the amended top-k property instantiated at the reachable
three-word index with `k = 3`. -/
theorem C1_witness :
    (trieAAA.complete ['a'] 3).length =
      min (3 : Int).toNat (wordsUnder trieAAA ['a']) ∧
    (∀ v ∈ trieAAA.complete ['a'] 3,
      startsWith ['a'] v = true ∧ trieAAA.contains v = true) ∧
    (trieAAA.complete ['a'] 3).Pairwise
      (fun a b => score trieAAA b < score trieAAA a ∨
        (score trieAAA a = score trieAAA b ∧ a < b)) ∧
    (∀ v ∈ trieAAA.complete ['a'] 3, ∀ u, startsWith ['a'] u = true →
      trieAAA.contains u = true → u ∉ trieAAA.complete ['a'] 3 →
      ile (score trieAAA u, u) (score trieAAA v, v)) ∧
    trieAAA.complete ['a'] 3 = [['a', 'a'], ['a', 'b'], ['a', 'c']] :=
  C1_complete_topk trieAAA trieAAA_reachable ['a'] 3
